import Mathlib

/-!
Verification of the core of `V1DetectionsToCSV.py` (Trend Micro Vision One
detection retrieval script) against its natural-language specification.

The Python source is shallowly embedded:
* Python `dict`s become association lists (`List (String × _)`); `dict.get`
  becomes an `Option`-valued lookup on the first matching key (Python keys are
  unique, so "first match" is faithful).
* JSON-ish Python values become the inductive type `PyVal`.
* Fallible code (comparisons that can raise `TypeError`, e.g. `None <= "x"`)
  is modelled in `Except PyErr`.
* The filesystem effects of `_write_to_csv` become a pure state transformer on
  `PState` (output file, temp file, tracked fieldnames); `os.replace` is the
  single step that changes the output slot.
* `time.time()` readings and sleeps become explicit rational-number inputs to
  the rate-limiter transition function.
-/

namespace V1D

/-! ## Python values (for `flatten_dict`, source lines 179-190) -/

/-- A JSON-shaped Python value as it appears in a detection record. -/
inductive PyVal where
  | none
  | str (s : String)
  | int (n : Int)
  | bool (b : Bool)
  | list (xs : List PyVal)

/-- `value is None` as a Boolean test. -/
def PyVal.isNone : PyVal → Bool
  | .none => true
  | _ => false

/-- Python `repr` restricted to the values above (string escaping is not
modelled; the repository never feeds quotes through `str()` in the claims we
check). -/
def pyRepr : PyVal → String
  | .none => "None"
  | .str s => "'" ++ s ++ "'"
  | .int n => toString n
  | .bool b => if b then "True" else "False"
  | .list xs => "[" ++ String.intercalate ", " (xs.attach.map (fun v => pyRepr v.1)) ++ "]"
decreasing_by
  have h := v.2
  simp only [PyVal.list.sizeOf_spec]
  have := List.sizeOf_lt_of_mem h
  omega

/-- Python `str()` on the same values: identical to `repr` except on
top-level strings. -/
def pyStr : PyVal → String
  | .str s => s
  | v => pyRepr v

/-- `VisionOneAPI.LIST_FIELDS` (source line 127). -/
def LIST_FIELDS : List String := ["endpointIp", "interestedIp", "act", "dst", "src"]

/-- The per-entry transform inside `DetectionProcessor.flatten_dict`
(source lines 183-189): `None` becomes `''`; a list value under a key in
`LIST_FIELDS` becomes its comma-join with `None` elements skipped; everything
else is passed through untouched. -/
def flattenVal (k : String) (v : PyVal) : PyVal :=
  match v with
  | .none => .str ""
  | .list xs =>
      if k ∈ LIST_FIELDS then
        .str (String.intercalate "," ((xs.filter (fun x => !x.isNone)).map pyStr))
      else .list xs
  | v => v

/-- `DetectionProcessor.flatten_dict` (source lines 179-190): iterates the
dict's items, producing a dict with the same keys. -/
def flatten_dict (item : List (String × PyVal)) : List (String × PyVal) :=
  item.map (fun kv => (kv.1, flattenVal kv.1 kv.2))

/-- Python `dict.get(k)` on an association list. -/
def plookup (k : String) (item : List (String × PyVal)) : Option PyVal :=
  (item.find? (fun kv => kv.1 == k)).map (·.2)

/-! ## Time-window partitioning (source lines 321-333 in `main`) -/

/-- `interval_seconds = total_seconds // config.num_threads`
(source line 325); times are modelled as seconds. -/
def intervalSeconds (s e n : ℕ) : ℕ := (e - s) / n

/-- `interval_start = start_datetime + timedelta(seconds=i * interval_seconds)`
(source line 329). -/
def intervalStart (s iv i : ℕ) : ℕ := s + i * iv

/-- `interval_end`, clamped to `end_datetime` when it overshoots or when this
is the last interval (source lines 330-332). -/
def intervalEnd (s e iv n i : ℕ) : ℕ :=
  if e < s + (i + 1) * iv ∨ i = n - 1 then e else s + (i + 1) * iv

/-- The list of `(interval_start, interval_end)` pairs built by the loop at
source lines 327-333. -/
def intervals (s e n : ℕ) : List (ℕ × ℕ) :=
  (List.range n).map (fun i =>
    (intervalStart s (intervalSeconds s e n) i, intervalEnd s e (intervalSeconds s e n) n i))

/-! ## Pagination cursor (`_get_next_params`, source lines 294-305) -/

/-- A raw API response: `data.get('items', [])` and `data.get('nextLink', '')`
(a missing `nextLink` is modelled as the empty string, as in the source). -/
structure ApiResponse where
  items : List (List (String × PyVal))
  nextLink : String

/-- Split a character list on a separator character (used to model
`urllib.parse` query-string handling over code points). -/
def splitOnChar (c : Char) : List Char → List (List Char)
  | [] => [[]]
  | x :: xs =>
      let r := splitOnChar c xs
      if x = c then [] :: r
      else
        match r with
        | [] => [[x]]
        | h :: t => (x :: h) :: t

/-- The query component of a URL: everything after the first `?`
(models `urllib.parse.urlparse(next_link).query`; fragments do not occur in
Vision One `nextLink` values and are not modelled). -/
def urlQuery (url : String) : List Char :=
  match splitOnChar '?' url.toList with
  | [] => []
  | [_] => []
  | _ :: qs => List.intercalate ['?'] qs

/-- `urllib.parse.parse_qs(query).get(key, [''])[0]`: the first non-blank
value bound to `key` (`parse_qs` drops blank values and fields without `=`;
percent-decoding is not modelled). -/
def parseQsFirst (query : List Char) (key : String) : String :=
  String.mk
    (((splitOnChar '&' query).filterMap (fun pair =>
        match splitOnChar '=' pair with
        | [] => Option.none
        | [_] => Option.none
        | k :: rest =>
            let v := List.intercalate ['='] rest
            if k = key.toList ∧ v ≠ [] then some v else Option.none)).headD [])

/-- `DetectionProcessor._get_next_params` (source lines 294-305), reduced to
the data it actually reads: it returns the next `skipToken` (wrapped into the
next request's params by the caller), or `none` to stop the walker. -/
def getNextSkipToken (maxReached : Bool) (data : ApiResponse) : Option String :=
  if data.nextLink ≠ "" ∧ maxReached = false then
    let tok := parseQsFirst (urlQuery data.nextLink) "skipToken"
    if tok ≠ "" then some tok else none
  else none

/-! ## The merge writer (`_write_to_csv`, source lines 197-247)

After `flatten_dict` and after CSV round-trips, the rows the merge writer
handles carry string field values; a row is an association list with
`dict.get` lookup. The sort key access `x.get('eventTimeDT')` yields an
`Option String`, and Python comparisons on it raise `TypeError` unless both
sides are strings — modelled in `Except PyErr`. -/

/-- A flattened detection row / a row read back by `csv.DictReader`. -/
abbrev Row := List (String × String)

/-- Python `row.get(k)`. -/
def rget (r : Row) (k : String) : Option String :=
  (r.find? (fun kv => kv.1 == k)).map (·.2)

/-- `x.get('eventTimeDT')` — the sort key, possibly absent. -/
def rkey (r : Row) : Option String := rget r "eventTimeDT"

/-- The sort key defaulted to `""`; coincides with the Python value whenever
the key is present (the only situation in which the code completes). -/
def rkeyD (r : Row) : String := (rkey r).getD ""

/-- The one runtime error our embedding tracks: `TypeError` from comparing
`None` with a string (or `None` with `None`). -/
inductive PyErr where
  | typeError
deriving DecidableEq

/-- Python `a < b` on sort keys: defined only when both are strings. -/
def pyLt : Option String → Option String → Except PyErr Bool
  | some a, some b => .ok (decide (a < b))
  | _, _ => .error .typeError

/-- Python `a <= b` on sort keys: defined only when both are strings. -/
def pyLe : Option String → Option String → Except PyErr Bool
  | some a, some b => .ok (decide (a ≤ b))
  | _, _ => .error .typeError

/-- Stable insertion of a row into an already-sorted accumulator, placing the
new row *after* rows with an equal key (Python's sort is stable and compares
with `<`). -/
def insertRowE (x : Row) : List Row → Except PyErr (List Row)
  | [] => .ok [x]
  | y :: ys => do
      let b ← pyLt (rkey x) (rkey y)
      if b then return x :: y :: ys
      else
        let r ← insertRowE x ys
        return y :: r

/-- `items.sort(key=lambda x: x.get('eventTimeDT'))` (source line 203).
Python's Timsort is modelled by binary insertion: both are stable sorts by
the same key, and a stable sort's output is determined by (sorted, stable,
permutation), so the embedding is extensionally faithful; both raise
`TypeError` exactly when a `None` key meets a comparison. -/
def sortRowsE (items : List Row) : Except PyErr (List Row) :=
  items.foldlM (fun acc x => insertRowE x acc) []

/-- The two-pointer linear merge of source lines 215-228: existing rows win
ties (`existing_time <= new_time`), leftovers are appended. -/
def mergeRowsE : List Row → List Row → Except PyErr (List Row)
  | [], ys => .ok ys
  | x :: xs, [] => .ok (x :: xs)
  | x :: xs, y :: ys => do
      let b ← pyLe (rkey x) (rkey y)
      if b then
        let r ← mergeRowsE xs (y :: ys)
        return x :: r
      else
        let r ← mergeRowsE (x :: xs) ys
        return y :: r
termination_by a b => a.length + b.length

/-- Pure counterpart of `insertRowE` on the defaulted key (they agree when
every key is present). -/
def insertRow (x : Row) : List Row → List Row
  | [] => [x]
  | y :: ys => if rkeyD x < rkeyD y then x :: y :: ys else y :: insertRow x ys

/-- Pure counterpart of `sortRowsE`. -/
def sortRows (items : List Row) : List Row :=
  items.foldl (fun acc x => insertRow x acc) []

/-- Pure counterpart of `mergeRowsE`. -/
def mergeRows : List Row → List Row → List Row
  | [], ys => ys
  | x :: xs, [] => x :: xs
  | x :: xs, y :: ys =>
      if rkeyD x ≤ rkeyD y then x :: mergeRows xs (y :: ys)
      else y :: mergeRows (x :: xs) ys
termination_by a b => a.length + b.length

/-- Insertion sort on strings, for Python's `sorted(keys)`. -/
def insertStr (s : String) : List String → List String
  | [] => [s]
  | y :: ys => if s ≤ y then s :: y :: ys else y :: insertStr s ys

/-- Python `sorted(...)` on a list of strings. -/
def sortStrs (l : List String) : List String := l.foldr insertStr []

/-- `sorted(row.keys())` (source lines 233 and 238). -/
def rowKeysSorted (r : Row) : List String := sortStrs (r.map Prod.fst)

/-- What `csv.DictWriter(..., extrasaction='ignore')` (default `restval=''`)
writes for one row, and identically what `csv.DictReader` hands back after a
round-trip: the row projected onto the header, missing columns filled with
`''`, extra keys dropped. -/
def projRow (hdr : List String) (r : Row) : Row :=
  hdr.map (fun k => (k, (rget r k).getD ""))

/-- The persisted CSV file: a header row plus data rows (stored in written,
i.e. projected, form). -/
structure CsvFile where
  header : List String
  rows : List Row
deriving DecidableEq

/-- The mutable state `_write_to_csv` touches: the output path, the sibling
temp path, and `self.fieldnames` (the initial `set()` is modelled as `[]`;
the only assignment in reachable code stores a sorted list,
source line 238). -/
structure PState where
  output : Option CsvFile
  temp : Option CsvFile
  fieldnames : List String
deriving DecidableEq

/-- `DetectionProcessor._update_fieldnames` (source lines 192-195): the union
of the tracked set with every key of every item. The method is defined in the
source but *never called*, which is what claim C5 turns on. -/
def update_fieldnames (fieldnames : List String) (items : List Row) : List String :=
  items.foldl
    (fun fns r => fns ++ (r.map Prod.fst).filter (fun k => !(fns.contains k)))
    fieldnames

/-- `_write_to_csv` as a sequence of filesystem states: the state after the
temp file is fully written, then the state after `os.replace` installs it.
The output slot changes only at the final (`os.replace`) step; an empty batch
produces no steps (source lines 199-200). -/
def writeStepsE (st : PState) (items : List Row) : Except PyErr (List PState) :=
  match items with
  | [] => .ok []
  | _ :: _ => do
    let sortedItems ← sortRowsE items
    match st.output with
    | some f => do
        let merged ← mergeRowsE f.rows sortedItems
        let hdr := if st.fieldnames.isEmpty then rowKeysSorted (merged.headD [])
          else st.fieldnames
        let nf : CsvFile := ⟨hdr, merged.map (projRow hdr)⟩
        return [⟨st.output, some nf, st.fieldnames⟩, ⟨some nf, Option.none, st.fieldnames⟩]
    | Option.none =>
        let fns := rowKeysSorted (sortedItems.headD [])
        let nf : CsvFile := ⟨fns, sortedItems.map (projRow fns)⟩
        return [⟨st.output, some nf, fns⟩, ⟨some nf, Option.none, fns⟩]

/-- `DetectionProcessor._write_to_csv` end to end: the final state after the
call (identity on an empty batch). -/
def writeToCsvE (st : PState) (items : List Row) : Except PyErr PState :=
  (writeStepsE st items).map (fun ss => ss.getLastD st)

/-! ## Ordering infrastructure for the merge writer -/

/-- "Row `a` sorts no later than row `b`" under the defaulted sort key. -/
abbrev keyLe (a b : Row) : Prop := rkeyD a ≤ rkeyD b

/-- The rows are ascending by the sort key. -/
abbrev SortedRows (l : List Row) : Prop := l.Pairwise keyLe

/-- The rows whose sort key equals `k`, in order. -/
def keyFilter (k : String) (l : List Row) : List Row :=
  l.filter (fun r => rkeyD r == k)

/-- Every row has a present (string) sort key. -/
abbrev KeyedRows (l : List Row) : Prop := ∀ r ∈ l, (rkey r).isSome

/-- The record used in the spec's normalization example. -/
def c7Example : List (String × PyVal) :=
  [("act", .list [.str "Block", .str "Log"]), ("src", .none), ("count", .int 5)]

/-! ## C8: when the page walker stops -/

/-- A response carrying one item (fewer than any requested page size > 1)
together with a usable continuation cursor. -/
def c8Resp : ApiResponse :=
  ⟨[[("eventTimeDT", .str "2024-10-01T00:00:01Z")]], "https://x/api?skipToken=abc"⟩

/-- The file the no-output-yet branch creates (source lines 236-244). -/
def newFileOfBatch (items : List Row) : CsvFile :=
  ⟨rowKeysSorted ((sortRows items).headD []),
   (sortRows items).map (projRow (rowKeysSorted ((sortRows items).headD [])))⟩

/-- The header used by the merge branch (source line 233):
`self.fieldnames or sorted(merged_rows[0].keys())`. -/
def mergedHeader (fns : List String) (f : CsvFile) (items : List Row) : List String :=
  if fns.isEmpty then rowKeysSorted ((mergeRows f.rows (sortRows items)).headD []) else fns

/-- The file the merge branch writes (source lines 208-235). -/
def mergedFile (fns : List String) (f : CsvFile) (items : List Row) : CsvFile :=
  ⟨mergedHeader fns f items,
   (mergeRows f.rows (sortRows items)).map (projRow (mergedHeader fns f items))⟩

/-! ## C5: the CSV header does not grow (code bug) -/

/-- First batch: one record with only the sort key. -/
def c5r1 : Row := [("eventTimeDT", "2024-01-01")]

/-- Second batch: a record introducing a new field `severity`. -/
def c5r2 : Row := [("eventTimeDT", "2024-01-02"), ("severity", "high")]

/-! ## RateLimiter (source lines 84-122)

Timestamps are modelled as integers (clock ticks). The limiter's logic uses
only subtraction, comparison, `max`, and the constants 60/3600, so nothing
depends on the tick granularity; a float clock is the same model at a finer
unit. `wait` takes the `time.time()` reading `t` at entry and the reading
`tWake` observed after the sleep (the lock is held throughout, so no other
thread interleaves). -/

structure RLState where
  minute_requests : List ℤ
  hour_requests : List ℤ
deriving DecidableEq

/-- `while q and now - q[0] > window: q.popleft()`
(source lines 97-102 and 115-118). -/
def evictOld (w t : ℤ) (q : List ℤ) : List ℤ :=
  q.dropWhile (fun x => decide (w < t - x))

/-- The wait-time computation of source lines 104-109: each limit whose
(evicted) deque is full contributes `window - (now - oldest)`, `max`-ed with
the running value starting at 0. `headI`'s default is never consulted when
the limits are ≥ 1. -/
def waitTimeCalc (L H : ℕ) (t : ℤ) (q1m q1h : List ℤ) : ℤ :=
  let wt0 : ℤ := 0
  let wt1 := if L ≤ q1m.length then max wt0 (60 - (t - q1m.headI)) else wt0
  if H ≤ q1h.length then max wt1 (3600 - (t - q1h.headI)) else wt1

namespace RateLimiter

/-- `RateLimiter.wait` (source lines 92-122): evict both deques at the entry
time, compute the wait, optionally sleep (waking at `tWake`) and re-evict,
then append the current reading to both deques. Returns the new state and
the recorded (admission) timestamp. -/
def wait (L H : ℕ) (st : RLState) (t tWake : ℤ) : RLState × ℤ :=
  let q1m := evictOld 60 t st.minute_requests
  let q1h := evictOld 3600 t st.hour_requests
  let wt := waitTimeCalc L H t q1m q1h
  if 0 < wt then
    (⟨evictOld 60 tWake q1m ++ [tWake], evictOld 3600 tWake q1h ++ [tWake]⟩, tWake)
  else
    (⟨q1m ++ [t], q1h ++ [t]⟩, t)

/-- A sequence of `wait` calls; returns the final state and the list of
recorded admission timestamps. -/
def run (L H : ℕ) (st : RLState) : List (ℤ × ℤ) → RLState × List ℤ
  | [] => (st, [])
  | (t, tw) :: rest =>
      let step := wait L H st t tw
      let next := run L H step.1 rest
      (next.1, step.2 :: next.2)

/-- Trace validity: every call's entry reading strictly exceeds the previous
call's final reading (clock readings strictly increase across serialized
calls), and a sleep of `wt` wakes no earlier than `t + wt`. -/
def validFrom (L H : ℕ) (prev : ℤ) (st : RLState) : List (ℤ × ℤ) → Bool
  | [] => true
  | (t, tw) :: rest =>
      let wt := waitTimeCalc L H t (evictOld 60 t st.minute_requests)
        (evictOld 3600 t st.hour_requests)
      decide (prev < t) && (!decide (0 < wt) || decide (t + wt ≤ tw)) &&
        validFrom L H (wait L H st t tw).2 (wait L H st t tw).1 rest

end RateLimiter

/-- Admissions `K` apart in sequence are at least `d` apart in time. -/
def Spaced (d : ℤ) (K : ℕ) (h : List ℤ) : Prop :=
  ∀ i x y, h.get? i = some x → h.get? (i + K) = some y → x + d ≤ y

/-- The inductive invariant tying the recorded admission history to the
limiter state: history strictly increasing and bounded by the last reading,
spacing for both windows, and each deque is exactly the recent slice of the
history. -/
def RLInv (L H : ℕ) (hist : List ℤ) (prev : ℤ) (st : RLState) : Prop :=
  hist.Pairwise (· < ·) ∧ (∀ x ∈ hist, x ≤ prev) ∧
  Spaced 60 L hist ∧ Spaced 3600 H hist ∧
  st.minute_requests = hist.filter (fun x => decide (prev - x ≤ 60)) ∧
  st.hour_requests = hist.filter (fun x => decide (prev - x ≤ 3600))

/-! # Theorems -/

/-! # Claim theorems (first group) -/

/-! ## C3: time-window partition -/

theorem mul_intervalSeconds_le (s e n i : ℕ) (hi : i ≤ n) :
    i * intervalSeconds s e n ≤ e - s := by
  have h1 : i * intervalSeconds s e n ≤ n * intervalSeconds s e n :=
    mul_le_mul_right' hi _
  have h2 : n * intervalSeconds s e n ≤ e - s := by
    simp only [intervalSeconds]
    rw [Nat.mul_comm]
    exact Nat.div_mul_le_self (e - s) n
  exact le_trans h1 h2

theorem intervals_start_zero (s e n : ℕ) :
    intervalStart s (intervalSeconds s e n) 0 = s := by
  simp [intervalStart]

theorem intervalEnd_eq_next_start (s e n : ℕ) (hse : s ≤ e) (i : ℕ) (hi : i < n - 1) :
    intervalEnd s e (intervalSeconds s e n) n i
      = intervalStart s (intervalSeconds s e n) (i + 1) := by
  have hno : (i + 1) * intervalSeconds s e n ≤ e - s :=
    mul_intervalSeconds_le s e n (i + 1) (by omega)
  have hcond : ¬ (e < s + (i + 1) * intervalSeconds s e n ∨ i = n - 1) := by
    push_neg
    exact ⟨by omega, by omega⟩
  simp only [intervalEnd, if_neg hcond, intervalStart]

theorem intervalEnd_last (s e n : ℕ) :
    intervalEnd s e (intervalSeconds s e n) n (n - 1) = e := by
  simp [intervalEnd]

theorem intervalStart_le_end (s e n : ℕ) (hse : s ≤ e) (i : ℕ) (hi : i < n) :
    intervalStart s (intervalSeconds s e n) i ≤ intervalEnd s e (intervalSeconds s e n) n i := by
  have hlow : i * intervalSeconds s e n ≤ e - s :=
    mul_intervalSeconds_le s e n i (by omega)
  have hstep : i * intervalSeconds s e n ≤ (i + 1) * intervalSeconds s e n :=
    mul_le_mul_right' (by omega) _
  by_cases hcond : e < s + (i + 1) * intervalSeconds s e n ∨ i = n - 1
  · simp only [intervalEnd, intervalStart, if_pos hcond]
    omega
  · simp only [intervalEnd, intervalStart, if_neg hcond]
    omega

/-- Coverage of the prefix `[s, intervalEnd j]` by the first `j+1` intervals. -/
theorem intervals_cover_prefix (s e n : ℕ) (hse : s ≤ e) :
    ∀ j, j ≤ n - 1 → ∀ t, s ≤ t → t ≤ intervalEnd s e (intervalSeconds s e n) n j →
      ∃ i ≤ j, intervalStart s (intervalSeconds s e n) i ≤ t ∧
        t ≤ intervalEnd s e (intervalSeconds s e n) n i := by
  intro j
  induction j with
  | zero =>
      intro _ t hst hte
      exact ⟨0, le_refl 0, by simpa [intervalStart] using hst, hte⟩
  | succ j ih =>
      intro hj t hst hte
      by_cases hcase : t ≤ intervalEnd s e (intervalSeconds s e n) n j
      · obtain ⟨i, hi, h1, h2⟩ := ih (by omega) t hst hcase
        exact ⟨i, by omega, h1, h2⟩
      · push_neg at hcase
        refine ⟨j + 1, le_refl _, ?_, hte⟩
        have := intervalEnd_eq_next_start s e n hse j (by omega)
        omega

/-- **C3.** For every window with `s ≤ e` and every worker count `n ≥ 1`, the
`n` computed sub-intervals are contiguous (each one's end is the next one's
start), each has start ≤ end, the first starts at `s`, the last ends at `e`
(absorbing the rounding remainder, including the degenerate case
`e - s < n`), and their union is exactly `[s, e]`. -/
theorem partition_covers_window (s e n : ℕ) (hse : s ≤ e) (hn : 1 ≤ n) :
    intervalStart s (intervalSeconds s e n) 0 = s ∧
    intervalEnd s e (intervalSeconds s e n) n (n - 1) = e ∧
    (∀ i < n - 1, intervalEnd s e (intervalSeconds s e n) n i
        = intervalStart s (intervalSeconds s e n) (i + 1)) ∧
    (∀ i < n, intervalStart s (intervalSeconds s e n) i
        ≤ intervalEnd s e (intervalSeconds s e n) n i) ∧
    (∀ t, (s ≤ t ∧ t ≤ e) ↔ ∃ i < n, intervalStart s (intervalSeconds s e n) i ≤ t ∧
        t ≤ intervalEnd s e (intervalSeconds s e n) n i) := by
  refine ⟨intervals_start_zero s e n, intervalEnd_last s e n,
    (fun i hi => intervalEnd_eq_next_start s e n hse i hi),
    (fun i hi => intervalStart_le_end s e n hse i hi), ?_⟩
  intro t
  constructor
  · rintro ⟨h1, h2⟩
    obtain ⟨i, hi, ha, hb⟩ := intervals_cover_prefix s e n hse (n - 1) (le_refl _) t h1
      (by rw [intervalEnd_last s e n]; exact h2)
    exact ⟨i, by omega, ha, hb⟩
  · rintro ⟨i, hi, ha, hb⟩
    constructor
    · have : s ≤ intervalStart s (intervalSeconds s e n) i := by
        simp [intervalStart]
      omega
    · have hend : intervalEnd s e (intervalSeconds s e n) n i ≤ e := by
        by_cases hcond : e < s + (i + 1) * intervalSeconds s e n ∨ i = n - 1
        · simp [intervalEnd, hcond]
        · simp only [intervalEnd, if_neg hcond]
          push_neg at hcond
          omega
      omega

theorem partition_covers_window_witness :
    (0 : ℕ) ≤ 10 ∧ (1 : ℕ) ≤ 3 ∧
    (intervalStart 0 (intervalSeconds 0 10 3) 0 = 0 ∧
     intervalEnd 0 10 (intervalSeconds 0 10 3) 3 (3 - 1) = 10 ∧
     (∀ i < 3 - 1, intervalEnd 0 10 (intervalSeconds 0 10 3) 3 i
         = intervalStart 0 (intervalSeconds 0 10 3) (i + 1)) ∧
     (∀ i < 3, intervalStart 0 (intervalSeconds 0 10 3) i
         ≤ intervalEnd 0 10 (intervalSeconds 0 10 3) 3 i) ∧
     (∀ t, ((0 : ℕ) ≤ t ∧ t ≤ 10) ↔ ∃ i < 3, intervalStart 0 (intervalSeconds 0 10 3) i ≤ t ∧
         t ≤ intervalEnd 0 10 (intervalSeconds 0 10 3) 3 i)) :=
  ⟨by decide, by decide, partition_covers_window 0 10 3 (by decide) (by decide)⟩

theorem keyFilter_cons (k : String) (x : Row) (l : List Row) :
    keyFilter k (x :: l) = if rkeyD x = k then x :: keyFilter k l else keyFilter k l := by
  by_cases hx : rkeyD x = k <;> simp [keyFilter, List.filter_cons, hx]

theorem keyFilter_singleton (k : String) (x : Row) :
    keyFilter k [x] = if rkeyD x = k then [x] else [] := by
  by_cases hx : rkeyD x = k <;> simp [keyFilter, List.filter_cons, hx]

theorem keyFilter_append (k : String) (a b : List Row) :
    keyFilter k (a ++ b) = keyFilter k a ++ keyFilter k b := by
  simp [keyFilter, List.filter_append]

theorem sorted_head_min {x : Row} {xs : List Row} (h : SortedRows (x :: xs)) :
    ∀ z ∈ x :: xs, rkeyD x ≤ rkeyD z := by
  intro z hz
  rcases List.mem_cons.mp hz with rfl | hz
  · exact le_refl _
  · exact (List.pairwise_cons.mp h).1 z hz

theorem keyFilter_eq_nil_of_lt {l : List Row} {k : String} (h : ∀ z ∈ l, k < rkeyD z) :
    keyFilter k l = [] := by
  refine List.filter_eq_nil_iff.mpr ?_
  intro z hz
  simp only [beq_iff_eq]
  exact ne_of_gt (h z hz)

/-! ### Insertion sort (`items.sort`) lemmas -/

theorem insertRow_perm (x : Row) (l : List Row) :
    List.Perm (insertRow x l) (x :: l) := by
  induction l with
  | nil => exact List.Perm.refl _
  | cons y ys ih =>
      by_cases hlt : rkeyD x < rkeyD y
      · simp [insertRow, hlt]
      · simp only [insertRow, if_neg hlt]
        exact (ih.cons y).trans (List.Perm.swap x y ys)

theorem insertRow_sorted {l : List Row} (hs : SortedRows l) (x : Row) :
    SortedRows (insertRow x l) := by
  induction l with
  | nil => simp [insertRow, SortedRows]
  | cons y ys ih =>
      by_cases hlt : rkeyD x < rkeyD y
      · simp only [insertRow, if_pos hlt]
        refine List.pairwise_cons.mpr ⟨?_, hs⟩
        intro z hz
        exact le_trans (le_of_lt hlt) (sorted_head_min hs z hz)
      · simp only [insertRow, if_neg hlt]
        have hyx : rkeyD y ≤ rkeyD x := le_of_not_lt hlt
        have hys := (List.pairwise_cons.mp hs).2
        refine List.pairwise_cons.mpr ⟨?_, ih hys⟩
        intro z hz
        have hz' := (insertRow_perm x ys).mem_iff.mp hz
        rcases List.mem_cons.mp hz' with rfl | hz''
        · exact hyx
        · exact (List.pairwise_cons.mp hs).1 z hz''

theorem insertRow_filter {l : List Row} (hs : SortedRows l) (x : Row) (k : String) :
    keyFilter k (insertRow x l) = keyFilter k l ++ keyFilter k [x] := by
  induction l with
  | nil =>
      rw [show insertRow x [] = [x] from rfl]
      simp [keyFilter]
  | cons y ys ih =>
      by_cases hlt : rkeyD x < rkeyD y
      · rw [show insertRow x (y :: ys) = x :: y :: ys from by simp [insertRow, hlt]]
        rw [keyFilter_cons, keyFilter_singleton]
        by_cases hx : rkeyD x = k
        · have hnil : keyFilter k (y :: ys) = [] := by
            refine keyFilter_eq_nil_of_lt ?_
            intro z hz
            calc k = rkeyD x := hx.symm
              _ < rkeyD y := hlt
              _ ≤ rkeyD z := sorted_head_min hs z hz
          rw [if_pos hx, if_pos hx, hnil]
          rfl
        · rw [if_neg hx, if_neg hx]
          simp
      · rw [show insertRow x (y :: ys) = y :: insertRow x ys from by simp [insertRow, hlt]]
        have hys := (List.pairwise_cons.mp hs).2
        rw [keyFilter_cons, keyFilter_cons, ih hys]
        by_cases hy : rkeyD y = k
        · rw [if_pos hy, if_pos hy]
          rfl
        · rw [if_neg hy, if_neg hy]

theorem foldl_insert_sorted : ∀ (items : List Row) (acc : List Row), SortedRows acc →
    SortedRows (items.foldl (fun a x => insertRow x a) acc) := by
  intro items
  induction items with
  | nil => intro acc h; exact h
  | cons x xs ih =>
      intro acc h
      exact ih (insertRow x acc) (insertRow_sorted h x)

theorem foldl_insert_perm : ∀ (items : List Row) (acc : List Row),
    List.Perm (items.foldl (fun a x => insertRow x a) acc) (acc ++ items) := by
  intro items
  induction items with
  | nil => intro acc; simp
  | cons x xs ih =>
      intro acc
      refine (ih (insertRow x acc)).trans ?_
      have h1 : List.Perm (insertRow x acc ++ xs) ((x :: acc) ++ xs) :=
        (insertRow_perm x acc).append_right xs
      refine h1.trans ?_
      simpa using (@List.perm_middle _ x acc xs).symm

theorem foldl_insert_filter (k : String) : ∀ (items : List Row) (acc : List Row),
    SortedRows acc →
    keyFilter k (items.foldl (fun a x => insertRow x a) acc)
      = keyFilter k acc ++ keyFilter k items := by
  intro items
  induction items with
  | nil => intro acc _; simp [keyFilter]
  | cons x xs ih =>
      intro acc h
      rw [List.foldl_cons, ih (insertRow x acc) (insertRow_sorted h x),
        insertRow_filter h x k, keyFilter_singleton, keyFilter_cons]
      by_cases hx : rkeyD x = k
      · rw [if_pos hx, if_pos hx]
        simp
      · rw [if_neg hx, if_neg hx]
        simp

theorem sortRows_sorted (items : List Row) : SortedRows (sortRows items) :=
  foldl_insert_sorted items [] (by simp [SortedRows])

theorem sortRows_perm (items : List Row) : List.Perm (sortRows items) items := by
  simpa using foldl_insert_perm items []

theorem sortRows_filter (items : List Row) (k : String) :
    keyFilter k (sortRows items) = keyFilter k items := by
  simpa [keyFilter] using foldl_insert_filter k items [] (by simp [SortedRows])

/-! ### Two-pointer merge lemmas -/

theorem mergeRows_perm : ∀ (a b : List Row), List.Perm (mergeRows a b) (a ++ b) := by
  intro a b
  induction a, b using mergeRows.induct with
  | case1 ys => simp [mergeRows]
  | case2 x xs => simp [mergeRows]
  | case3 x xs y ys hle ih =>
      simp only [mergeRows, if_pos hle]
      exact ih.cons x
  | case4 x xs y ys hle ih =>
      simp only [mergeRows, if_neg hle]
      exact (ih.cons y).trans (@List.perm_middle _ y (x :: xs) ys).symm

theorem mergeRows_sorted : ∀ {a b : List Row}, SortedRows a → SortedRows b →
    SortedRows (mergeRows a b) := by
  intro a b
  induction a, b using mergeRows.induct with
  | case1 ys =>
      intro _ hb
      rw [show mergeRows [] ys = ys from by simp [mergeRows]]
      exact hb
  | case2 x xs =>
      intro ha _
      rw [show mergeRows (x :: xs) [] = x :: xs from by simp [mergeRows]]
      exact ha
  | case3 x xs y ys hle ih =>
      intro ha hb
      simp only [mergeRows, if_pos hle]
      refine List.pairwise_cons.mpr ⟨?_, ih (List.pairwise_cons.mp ha).2 hb⟩
      intro z hz
      have hz' := (mergeRows_perm xs (y :: ys)).mem_iff.mp hz
      rcases List.mem_append.mp hz' with hz1 | hz2
      · exact (List.pairwise_cons.mp ha).1 z hz1
      · exact le_trans hle (sorted_head_min hb z hz2)
  | case4 x xs y ys hle ih =>
      intro ha hb
      simp only [mergeRows, if_neg hle]
      have hyx : rkeyD y ≤ rkeyD x := le_of_not_le hle
      refine List.pairwise_cons.mpr ⟨?_, ih ha (List.pairwise_cons.mp hb).2⟩
      intro z hz
      have hz' := (mergeRows_perm (x :: xs) ys).mem_iff.mp hz
      rcases List.mem_append.mp hz' with hz1 | hz2
      · exact le_trans hyx (sorted_head_min ha z hz1)
      · exact (List.pairwise_cons.mp hb).1 z hz2

theorem mergeRows_filter (k : String) : ∀ (a b : List Row), SortedRows a →
    keyFilter k (mergeRows a b) = keyFilter k a ++ keyFilter k b := by
  intro a b
  induction a, b using mergeRows.induct with
  | case1 ys => intro _; simp [mergeRows, keyFilter]
  | case2 x xs => intro _; simp [mergeRows, keyFilter]
  | case3 x xs y ys hle ih =>
      intro ha
      rw [show mergeRows (x :: xs) (y :: ys) = x :: mergeRows xs (y :: ys) from by
        simp [mergeRows, hle]]
      rw [keyFilter_cons, ih (List.pairwise_cons.mp ha).2,
        keyFilter_cons (k := k) x xs]
      by_cases hx : rkeyD x = k
      · rw [if_pos hx, if_pos hx]
        rfl
      · rw [if_neg hx, if_neg hx]
  | case4 x xs y ys hle ih =>
      intro ha
      rw [show mergeRows (x :: xs) (y :: ys) = y :: mergeRows (x :: xs) ys from by
        simp [mergeRows, hle]]
      rw [keyFilter_cons, ih ha, keyFilter_cons (k := k) y ys]
      by_cases hy : rkeyD y = k
      · have hnil : keyFilter k (x :: xs) = [] := by
          refine keyFilter_eq_nil_of_lt ?_
          intro z hz
          calc k = rkeyD y := hy.symm
            _ < rkeyD x := lt_of_not_le hle
            _ ≤ rkeyD z := sorted_head_min ha z hz
        rw [if_pos hy, if_pos hy, hnil]
        rfl
      · rw [if_neg hy, if_neg hy]

/-! ### Uniqueness: sorted rows are determined by their per-key slices -/

theorem sorted_ext : ∀ (X Y : List Row), SortedRows X → SortedRows Y →
    (∀ k, keyFilter k X = keyFilter k Y) → X = Y := by
  intro X
  induction X with
  | nil =>
      intro Y _ hY hf
      cases Y with
      | nil => rfl
      | cons y ys =>
          exfalso
          have := hf (rkeyD y)
          rw [keyFilter_cons] at this
          simp [keyFilter] at this
  | cons x xs ih =>
      intro Y hX hY hf
      cases Y with
      | nil =>
          exfalso
          have := hf (rkeyD x)
          rw [keyFilter_cons] at this
          simp [keyFilter] at this
      | cons y ys =>
          have hkxy : rkeyD x = rkeyD y := by
            have h1 : ∃ z ∈ y :: ys, rkeyD z = rkeyD x := by
              have hsame := hf (rkeyD x)
              rw [keyFilter_cons, if_pos rfl] at hsame
              have hmem : x ∈ keyFilter (rkeyD x) (y :: ys) := by
                rw [← hsame]; exact List.mem_cons_self _ _
              obtain ⟨hz, hp⟩ := List.mem_filter.mp hmem
              exact ⟨x, hz, by simpa using hp⟩
            have h2 : ∃ z ∈ x :: xs, rkeyD z = rkeyD y := by
              have hsame := (hf (rkeyD y)).symm
              rw [keyFilter_cons (k := rkeyD y) y ys, if_pos rfl] at hsame
              have hmem : y ∈ keyFilter (rkeyD y) (x :: xs) := by
                rw [← hsame]; exact List.mem_cons_self _ _
              obtain ⟨hz, hp⟩ := List.mem_filter.mp hmem
              exact ⟨y, hz, by simpa using hp⟩
            obtain ⟨z1, hz1, he1⟩ := h1
            obtain ⟨z2, hz2, he2⟩ := h2
            have hle1 : rkeyD y ≤ rkeyD x := he1 ▸ sorted_head_min hY z1 hz1
            have hle2 : rkeyD x ≤ rkeyD y := he2 ▸ sorted_head_min hX z2 hz2
            exact le_antisymm hle2 hle1
          have hhead := hf (rkeyD x)
          rw [keyFilter_cons, keyFilter_cons, if_pos rfl, if_pos hkxy.symm] at hhead
          have hxy : x = y := (List.cons.injEq _ _ _ _ ▸ hhead).1
          have htail : ∀ k, keyFilter k xs = keyFilter k ys := by
            intro k
            have hsame := hf k
            rw [keyFilter_cons, keyFilter_cons, hxy] at hsame
            by_cases hk : rkeyD y = k
            · rw [if_pos hk, if_pos hk] at hsame
              exact (List.cons.injEq _ _ _ _ ▸ hsame).2
            · rw [if_neg hk, if_neg hk] at hsame
              exact hsame
          rw [hxy, ih ys (List.pairwise_cons.mp hX).2 (List.pairwise_cons.mp hY).2 htail]

/-! ### The checked computations agree with the pure ones when keys exist -/

theorem pyLt_ok {a b : Row} (ha : (rkey a).isSome) (hb : (rkey b).isSome) :
    pyLt (rkey a) (rkey b) = .ok (decide (rkeyD a < rkeyD b)) := by
  obtain ⟨x, hx⟩ := Option.isSome_iff_exists.mp ha
  obtain ⟨y, hy⟩ := Option.isSome_iff_exists.mp hb
  simp [pyLt, rkeyD, hx, hy]

theorem pyLe_ok {a b : Row} (ha : (rkey a).isSome) (hb : (rkey b).isSome) :
    pyLe (rkey a) (rkey b) = .ok (decide (rkeyD a ≤ rkeyD b)) := by
  obtain ⟨x, hx⟩ := Option.isSome_iff_exists.mp ha
  obtain ⟨y, hy⟩ := Option.isSome_iff_exists.mp hb
  simp [pyLe, rkeyD, hx, hy]

theorem keyedRows_insertRow {x : Row} {l : List Row} (hx : (rkey x).isSome)
    (hl : KeyedRows l) : KeyedRows (insertRow x l) := by
  intro r hr
  rcases List.mem_cons.mp ((insertRow_perm x l).mem_iff.mp hr) with rfl | h
  · exact hx
  · exact hl r h

theorem insertRowE_ok {x : Row} {l : List Row} (hx : (rkey x).isSome) (hl : KeyedRows l) :
    insertRowE x l = .ok (insertRow x l) := by
  induction l with
  | nil => rfl
  | cons y ys ih =>
      have hy : (rkey y).isSome := hl y (List.mem_cons_self _ _)
      have hys : KeyedRows ys := fun r hr => hl r (List.mem_cons_of_mem _ hr)
      by_cases hlt : rkeyD x < rkeyD y
      · rw [show insertRow x (y :: ys) = x :: y :: ys from by simp [insertRow, hlt]]
        simp only [insertRowE]
        rw [pyLt_ok hx hy, decide_eq_true hlt]
        rfl
      · rw [show insertRow x (y :: ys) = y :: insertRow x ys from by simp [insertRow, hlt]]
        simp only [insertRowE]
        rw [pyLt_ok hx hy, decide_eq_false hlt, ih hys]
        rfl

theorem sortRowsE_ok_aux : ∀ (items acc : List Row), KeyedRows items → KeyedRows acc →
    items.foldlM (fun acc x => insertRowE x acc) acc
      = .ok (items.foldl (fun acc x => insertRow x acc) acc) := by
  intro items
  induction items with
  | nil => intro acc _ _; rfl
  | cons x xs ih =>
      intro acc hi ha
      have hx : (rkey x).isSome := hi x (List.mem_cons_self _ _)
      have hxs : KeyedRows xs := fun r hr => hi r (List.mem_cons_of_mem _ hr)
      rw [List.foldlM_cons, insertRowE_ok hx ha]
      simpa using ih (insertRow x acc) hxs (keyedRows_insertRow hx ha)

theorem sortRowsE_ok {items : List Row} (h : KeyedRows items) :
    sortRowsE items = .ok (sortRows items) :=
  sortRowsE_ok_aux items [] h (fun r hr => absurd hr (List.not_mem_nil r))

theorem keyedRows_sortRows {items : List Row} (h : KeyedRows items) :
    KeyedRows (sortRows items) :=
  fun r hr => h r ((sortRows_perm items).mem_iff.mp hr)

theorem mergeRowsE_ok : ∀ {a b : List Row}, KeyedRows a → KeyedRows b →
    mergeRowsE a b = .ok (mergeRows a b) := by
  intro a b
  induction a, b using mergeRows.induct with
  | case1 ys => intro _ _; simp [mergeRowsE, mergeRows]
  | case2 x xs => intro _ _; simp [mergeRowsE, mergeRows]
  | case3 x xs y ys hle ih =>
      intro ha hb
      have hx : (rkey x).isSome := ha x (List.mem_cons_self _ _)
      have hy : (rkey y).isSome := hb y (List.mem_cons_self _ _)
      have hxs : KeyedRows xs := fun r hr => ha r (List.mem_cons_of_mem _ hr)
      rw [show mergeRows (x :: xs) (y :: ys) = x :: mergeRows xs (y :: ys) from by
        simp [mergeRows, hle]]
      simp only [mergeRowsE]
      rw [pyLe_ok hx hy, decide_eq_true hle, ih hxs hb]
      rfl
  | case4 x xs y ys hle ih =>
      intro ha hb
      have hx : (rkey x).isSome := ha x (List.mem_cons_self _ _)
      have hy : (rkey y).isSome := hb y (List.mem_cons_self _ _)
      have hys : KeyedRows ys := fun r hr => hb r (List.mem_cons_of_mem _ hr)
      rw [show mergeRows (x :: xs) (y :: ys) = y :: mergeRows (x :: xs) ys from by
        simp [mergeRows, hle]]
      simp only [mergeRowsE]
      rw [pyLe_ok hx hy, decide_eq_false hle, ih ha hys]
      rfl

/-! ### Projection (DictWriter/DictReader round-trip) lemmas -/

theorem rget_projRow (hdr : List String) (r : Row) (k : String) :
    rget (projRow hdr r) k = if k ∈ hdr then some ((rget r k).getD "") else none := by
  induction hdr with
  | nil => simp [projRow, rget]
  | cons h t ih =>
      by_cases hk : h = k
      · subst hk
        simp [projRow, rget, List.find?]
      · have hb : (h == k) = false := by simpa using hk
        have hstep : rget (projRow (h :: t) r) k = rget (projRow t r) k := by
          simp [projRow, rget, List.find?, hb]
        rw [hstep, ih]
        have hmem : (k ∈ h :: t) ↔ (k ∈ t) := by
          simp only [List.mem_cons]
          constructor
          · rintro (rfl | hm)
            · exact absurd rfl hk
            · exact hm
          · exact Or.inr
        by_cases hm : k ∈ t
        · rw [if_pos hm, if_pos (hmem.mpr hm)]
        · rw [if_neg hm, if_neg (fun hc => hm (hmem.mp hc))]

theorem rkey_projRow (hdr : List String) (r : Row) :
    rkey (projRow hdr r) = if "eventTimeDT" ∈ hdr then some (rkeyD r) else none := by
  simp [rkey, rget_projRow, rkeyD]

theorem rkeyD_projRow_mem {hdr : List String} (hm : "eventTimeDT" ∈ hdr) (r : Row) :
    rkeyD (projRow hdr r) = rkeyD r := by
  simp [rkeyD, rkey_projRow, hm]

theorem rkeyD_projRow_not_mem {hdr : List String} (hm : "eventTimeDT" ∉ hdr) (r : Row) :
    rkeyD (projRow hdr r) = "" := by
  simp [rkeyD, rkey_projRow, hm]

theorem rkey_projRow_isSome {hdr : List String} (hm : "eventTimeDT" ∈ hdr) (r : Row) :
    (rkey (projRow hdr r)).isSome := by
  simp [rkey_projRow, hm]

theorem keyedRows_map_proj {hdr : List String} (hm : "eventTimeDT" ∈ hdr) (l : List Row) :
    KeyedRows (l.map (projRow hdr)) := by
  intro r hr
  obtain ⟨a, _, rfl⟩ := List.mem_map.mp hr
  exact rkey_projRow_isSome hm a

theorem projRow_projRow (hdr : List String) (r : Row) :
    projRow hdr (projRow hdr r) = projRow hdr r := by
  show hdr.map (fun k => (k, (rget (projRow hdr r) k).getD ""))
      = hdr.map (fun k => (k, (rget r k).getD ""))
  refine List.map_congr_left ?_
  intro k hk
  rw [rget_projRow, if_pos hk]
  rfl

theorem sortedRows_map_proj {l : List Row} (hl : SortedRows l) (hdr : List String) :
    SortedRows (l.map (projRow hdr)) := by
  by_cases hm : "eventTimeDT" ∈ hdr
  · refine List.pairwise_map.mpr (hl.imp ?_)
    intro a b hab
    simpa [keyLe, rkeyD_projRow_mem hm] using hab
  · refine List.pairwise_map.mpr (hl.imp ?_)
    intro a b _
    simp [keyLe, rkeyD_projRow_not_mem hm]

theorem keyFilter_map_proj {hdr : List String} (hm : "eventTimeDT" ∈ hdr)
    (k : String) (l : List Row) :
    keyFilter k (l.map (projRow hdr)) = (keyFilter k l).map (projRow hdr) := by
  simp only [keyFilter]
  rw [List.filter_map]
  congr 1
  refine List.filter_congr ?_
  intro r _
  simp [Function.comp, rkeyD_projRow_mem hm]

/-! ## C7: record normalization (`flatten_dict`) -/

theorem plookup_cons (k : String) (kv : String × PyVal) (rest : List (String × PyVal)) :
    plookup k (kv :: rest) = if kv.1 == k then some kv.2 else plookup k rest := by
  simp only [plookup, List.find?]
  cases h : (kv.1 == k) <;> simp [h]

theorem plookup_flatten (item : List (String × PyVal)) (k : String) :
    plookup k (flatten_dict item) = (plookup k item).map (flattenVal k) := by
  induction item with
  | nil => rfl
  | cons kv rest ih =>
      have hcons : flatten_dict (kv :: rest) = (kv.1, flattenVal kv.1 kv.2) :: flatten_dict rest :=
        rfl
      rw [hcons, plookup_cons, plookup_cons]
      cases h : (kv.1 == k) with
      | false => simp [ih]
      | true =>
          have hk : kv.1 = k := by simpa using h
          simp [hk]

/-- **C7 (counterexample).** Normalizing the spec's example record yields
`count ↦ 5` (the integer, untouched), not `count ↦ "5"` as the claim states:
`flatten_dict` passes non-null, non-list-field values through unchanged. -/
theorem flatten_dict_claim_counterexample :
    flatten_dict c7Example
      = [("act", .str "Block,Log"), ("src", .str ""), ("count", .int 5)] ∧
    flatten_dict c7Example
      ≠ [("act", .str "Block,Log"), ("src", .str ""), ("count", .str "5")] := by
  refine ⟨rfl, ?_⟩
  intro h
  have h2 := congrArg (plookup "count") h
  have hL : plookup "count" (flatten_dict c7Example) = some (PyVal.int 5) := rfl
  have hR : plookup "count"
      [("act", PyVal.str "Block,Log"), ("src", PyVal.str ""), ("count", PyVal.str "5")]
      = some (PyVal.str "5") := rfl
  rw [hL, hR] at h2
  injection h2 with h3
  exact PyVal.noConfusion h3

/-- **C7 (amended).** `flatten_dict` is a pure per-key transform: null values
map to the empty string; a list-shaped value under a key in the fixed
multi-valued set maps to its elements comma-joined with null elements
skipped; a multi-valued key with a non-list value, and every other non-null
value, passes through *unchanged* (its string form is produced later, by the
CSV writer, not by `flatten_dict`). -/
theorem flatten_dict_spec (item : List (String × PyVal)) :
    (∀ k, plookup k (flatten_dict item) = (plookup k item).map (flattenVal k)) ∧
    (∀ k, plookup k item = some PyVal.none →
        plookup k (flatten_dict item) = some (.str "")) ∧
    (∀ k xs, k ∈ LIST_FIELDS → plookup k item = some (.list xs) →
        plookup k (flatten_dict item)
          = some (.str (String.intercalate "," ((xs.filter (fun x => !x.isNone)).map pyStr)))) ∧
    (∀ k xs, k ∉ LIST_FIELDS → plookup k item = some (.list xs) →
        plookup k (flatten_dict item) = some (.list xs)) ∧
    (∀ k v, plookup k item = some v → v ≠ PyVal.none → (∀ ys, v ≠ .list ys) →
        plookup k (flatten_dict item) = some v) := by
  refine ⟨plookup_flatten item, ?_, ?_, ?_, ?_⟩
  · intro k h
    rw [plookup_flatten, h]
    rfl
  · intro k xs hk h
    rw [plookup_flatten, h]
    simp [flattenVal, hk]
  · intro k xs hk h
    rw [plookup_flatten, h]
    simp [flattenVal, hk]
  · intro k v h hnone hlist
    rw [plookup_flatten, h]
    cases v with
    | none => exact absurd rfl hnone
    | list ys => exact absurd rfl (hlist ys)
    | str s => rfl
    | int n => rfl
    | bool b => rfl

theorem flatten_dict_spec_witness :
    plookup "src" c7Example = some PyVal.none ∧
    plookup "src" (flatten_dict c7Example) = some (.str "") :=
  ⟨rfl, (flatten_dict_spec c7Example).2.1 "src" rfl⟩

/-- **C8 (counterexample).** A response with fewer items than the requested
page size (`top = 5000`) but with a continuation cursor does *not* end the
walk: `_get_next_params` returns new params (the cursor), because the code
never compares `len(items)` against `top`. -/
theorem short_page_does_not_stop_walker :
    c8Resp.items.length < 5000 ∧ getNextSkipToken false c8Resp = some "abc" := by
  constructor
  · decide
  · rfl

/-- **C8 (amended).** The walker stops after a response exactly when the
max-results flag is set, the response has no `nextLink`, or the `nextLink`
query has no non-empty `skipToken`; the number of items returned (relative
to `top` or otherwise) plays no role in the decision. -/
theorem getNextSkipToken_characterization (m : Bool) (data : ApiResponse) :
    (getNextSkipToken m data = none ↔
      (m = true ∨ data.nextLink = "" ∨
        parseQsFirst (urlQuery data.nextLink) "skipToken" = "")) ∧
    (∀ items', getNextSkipToken m ⟨items', data.nextLink⟩ = getNextSkipToken m data) := by
  constructor
  · cases m <;> by_cases h1 : data.nextLink = "" <;>
      by_cases h3 : parseQsFirst (urlQuery data.nextLink) "skipToken" = "" <;>
      simp [getNextSkipToken, h1, h3]
  · intro items'
    rfl

/-! ## Characterization of `_write_to_csv` runs -/

theorem ok_bind {α β : Type} (a : α) (g : α → Except PyErr β) :
    (Except.ok a >>= g) = g a := rfl

theorem error_bind {α β : Type} (e : PyErr) (g : α → Except PyErr β) :
    ((Except.error e : Except PyErr α) >>= g) = Except.error e := rfl

theorem writeStepsE_none (t : Option CsvFile) (fns : List String) (x : Row) (xs : List Row)
    (hk : KeyedRows (x :: xs)) :
    writeStepsE ⟨Option.none, t, fns⟩ (x :: xs) = .ok
      [⟨Option.none, some (newFileOfBatch (x :: xs)), (newFileOfBatch (x :: xs)).header⟩,
       ⟨some (newFileOfBatch (x :: xs)), Option.none, (newFileOfBatch (x :: xs)).header⟩] := by
  have h1 : writeStepsE ⟨Option.none, t, fns⟩ (x :: xs)
      = (sortRowsE (x :: xs) >>= fun sortedItems =>
          Except.ok
            [⟨Option.none, some (⟨rowKeysSorted (sortedItems.headD []),
                sortedItems.map (projRow (rowKeysSorted (sortedItems.headD [])))⟩ : CsvFile),
              rowKeysSorted (sortedItems.headD [])⟩,
             ⟨some (⟨rowKeysSorted (sortedItems.headD []),
                sortedItems.map (projRow (rowKeysSorted (sortedItems.headD [])))⟩ : CsvFile),
              Option.none, rowKeysSorted (sortedItems.headD [])⟩]) := rfl
  rw [h1, sortRowsE_ok hk, ok_bind]
  rfl

theorem writeStepsE_some (t : Option CsvFile) (fns : List String) (f : CsvFile)
    (x : Row) (xs : List Row)
    (hkI : KeyedRows (x :: xs)) (hkE : KeyedRows f.rows) :
    writeStepsE ⟨some f, t, fns⟩ (x :: xs) = .ok
      [⟨some f, some (mergedFile fns f (x :: xs)), fns⟩,
       ⟨some (mergedFile fns f (x :: xs)), Option.none, fns⟩] := by
  have h1 : writeStepsE ⟨some f, t, fns⟩ (x :: xs)
      = (sortRowsE (x :: xs) >>= fun sortedItems =>
          mergeRowsE f.rows sortedItems >>= fun merged =>
            Except.ok
              [⟨some f, some (⟨(if fns.isEmpty then rowKeysSorted (merged.headD []) else fns),
                  merged.map (projRow
                    (if fns.isEmpty then rowKeysSorted (merged.headD []) else fns))⟩ : CsvFile),
                fns⟩,
               ⟨some (⟨(if fns.isEmpty then rowKeysSorted (merged.headD []) else fns),
                  merged.map (projRow
                    (if fns.isEmpty then rowKeysSorted (merged.headD []) else fns))⟩ : CsvFile),
                Option.none, fns⟩]) := rfl
  rw [h1, sortRowsE_ok hkI, ok_bind, mergeRowsE_ok hkE (keyedRows_sortRows hkI), ok_bind]
  rfl

theorem writeToCsvE_none (t : Option CsvFile) (fns : List String) (x : Row) (xs : List Row)
    (hk : KeyedRows (x :: xs)) :
    writeToCsvE ⟨Option.none, t, fns⟩ (x :: xs)
      = .ok ⟨some (newFileOfBatch (x :: xs)), Option.none, (newFileOfBatch (x :: xs)).header⟩ := by
  unfold writeToCsvE
  rw [writeStepsE_none t fns x xs hk]
  rfl

theorem writeToCsvE_some (t : Option CsvFile) (fns : List String) (f : CsvFile)
    (x : Row) (xs : List Row)
    (hkI : KeyedRows (x :: xs)) (hkE : KeyedRows f.rows) :
    writeToCsvE ⟨some f, t, fns⟩ (x :: xs)
      = .ok ⟨some (mergedFile fns f (x :: xs)), Option.none, fns⟩ := by
  unfold writeToCsvE
  rw [writeStepsE_some t fns f x xs hkI hkE]
  rfl

/-! ## C10: an empty batch is a no-op -/

/-- **C10.** `_write_to_csv` with an empty batch returns immediately: the
output file, the temp file and the tracked fieldnames are all unchanged, and
no filesystem step (hence no lock-protected work) happens at all. -/
theorem write_to_csv_empty_batch_noop (st : PState) :
    writeToCsvE st [] = .ok st ∧ writeStepsE st [] = .ok [] :=
  ⟨rfl, rfl⟩

/-! ## C1: the output rows stay globally ascending by the sort key -/

/-- **C1.** For every call of the merge writer with a non-empty batch (all
rows carrying a string `eventTimeDT`, as required for the comparisons to be
defined), if the existing file's rows are ascending by the sort key then the
new file's rows are again globally ascending, and on equal keys every
existing row is placed before every new row (the per-key slice of the result
is the existing slice followed by the batch slice, both written through the
header projection). This holds regardless of which worker calls or in what
sequence merges land, since each call re-establishes the invariant. -/
theorem merge_preserves_global_order (st : PState) (items : List Row)
    (hne : items ≠ [])
    (hkI : KeyedRows items)
    (hex : match st.output with
           | some f => KeyedRows f.rows ∧ SortedRows f.rows
           | Option.none => True) :
    ∃ st' f', writeToCsvE st items = .ok st' ∧ st'.output = some f' ∧ SortedRows f'.rows ∧
      ("eventTimeDT" ∈ f'.header → ∀ k,
        keyFilter k f'.rows
          = (keyFilter k (match st.output with | some f => f.rows | Option.none => [])).map
              (projRow f'.header)
            ++ (keyFilter k items).map (projRow f'.header)) := by
  obtain ⟨x, xs, rfl⟩ := List.exists_cons_of_ne_nil hne
  obtain ⟨o, t, fns⟩ := st
  cases o with
  | none =>
      refine ⟨_, newFileOfBatch (x :: xs), writeToCsvE_none t fns x xs hkI, rfl, ?_, ?_⟩
      · exact sortedRows_map_proj (sortRows_sorted _) _
      · intro hm k
        show keyFilter k ((sortRows (x :: xs)).map (projRow (newFileOfBatch (x :: xs)).header))
          = _
        rw [keyFilter_map_proj hm, sortRows_filter]
        simp [keyFilter]
  | some f =>
      obtain ⟨hkE, hsE⟩ := hex
      refine ⟨_, mergedFile fns f (x :: xs), writeToCsvE_some t fns f x xs hkI hkE, rfl, ?_, ?_⟩
      · exact sortedRows_map_proj (mergeRows_sorted hsE (sortRows_sorted _)) _
      · intro hm k
        show keyFilter k
            ((mergeRows f.rows (sortRows (x :: xs))).map (projRow (mergedFile fns f (x :: xs)).header))
          = _
        rw [keyFilter_map_proj hm, mergeRows_filter k _ _ hsE, sortRows_filter,
          List.map_append]

theorem merge_preserves_global_order_witness :
    (([[("eventTimeDT", "a")]] : List Row) ≠ [] ∧
     KeyedRows [[("eventTimeDT", "a")]] ∧
     (match (some ⟨["eventTimeDT"], [[("eventTimeDT", "b")]]⟩ : Option CsvFile) with
      | some f => KeyedRows f.rows ∧ SortedRows f.rows
      | Option.none => True)) ∧
    (∃ st' f',
      writeToCsvE ⟨some ⟨["eventTimeDT"], [[("eventTimeDT", "b")]]⟩, Option.none, ["eventTimeDT"]⟩
          [[("eventTimeDT", "a")]] = .ok st' ∧
      st'.output = some f' ∧ SortedRows f'.rows ∧
      ("eventTimeDT" ∈ f'.header → ∀ k,
        keyFilter k f'.rows
          = (keyFilter k (match (some ⟨["eventTimeDT"], [[("eventTimeDT", "b")]]⟩
                : Option CsvFile) with
              | some f => f.rows | Option.none => [])).map (projRow f'.header)
            ++ (keyFilter k [[("eventTimeDT", "a")]]).map (projRow f'.header))) :=
  ⟨⟨by decide, by decide, by decide⟩,
   merge_preserves_global_order
     ⟨some ⟨["eventTimeDT"], [[("eventTimeDT", "b")]]⟩, Option.none, ["eventTimeDT"]⟩
     [[("eventTimeDT", "a")]] (by decide) (by decide) (by decide)⟩

/-! ## C9: totality of the sort/merge under the string-key precondition -/

/-- **C9 (amended).** The sort/merge computation of `_write_to_csv` completes
without raising whenever every batch record and every existing row has a
string `eventTimeDT` value — the precondition is *sufficient*. (It is not
necessary: see the counterexample theorem; e.g. a single keyless record with
no existing file also completes, because no comparison is ever evaluated.) -/
theorem merge_total_on_keyed_rows (st : PState) (items : List Row)
    (hkI : KeyedRows items)
    (hex : match st.output with
           | some f => KeyedRows f.rows
           | Option.none => True) :
    ∃ st', writeToCsvE st items = .ok st' := by
  cases items with
  | nil => exact ⟨st, rfl⟩
  | cons x xs =>
      obtain ⟨o, t, fns⟩ := st
      cases o with
      | none => exact ⟨_, writeToCsvE_none t fns x xs hkI⟩
      | some f => exact ⟨_, writeToCsvE_some t fns f x xs hkI hex⟩

theorem merge_total_on_keyed_rows_witness :
    (KeyedRows [[("eventTimeDT", "t1"), ("act", "Block")]] ∧
     (match (some ⟨["eventTimeDT"], [[("eventTimeDT", "t0")]]⟩ : Option CsvFile) with
      | some f => KeyedRows f.rows
      | Option.none => True)) ∧
    (∃ st', writeToCsvE ⟨some ⟨["eventTimeDT"], [[("eventTimeDT", "t0")]]⟩, Option.none, []⟩
        [[("eventTimeDT", "t1"), ("act", "Block")]] = .ok st') :=
  ⟨⟨by decide, by decide⟩,
   merge_total_on_keyed_rows
     ⟨some ⟨["eventTimeDT"], [[("eventTimeDT", "t0")]]⟩, Option.none, []⟩
     [[("eventTimeDT", "t1"), ("act", "Block")]] (by decide) (by decide)⟩

/-- **C9 (counterexample).** The error branch is *not* reachable "exactly
when" the precondition fails: a batch consisting of one record without
`eventTimeDT`, written when no output file exists, violates the precondition
yet completes without error (the sort performs no comparison and there is no
merge loop). -/
theorem keyless_batch_can_still_succeed :
    writeToCsvE ⟨Option.none, Option.none, []⟩ [[("act", "Block")]]
        = .ok ⟨some ⟨["act"], [[("act", "Block")]]⟩, Option.none, ["act"]⟩ ∧
    ¬ KeyedRows [[("act", "Block")]] := by
  constructor
  · rfl
  · decide

/-! ## C2: crash-safety of the temp-file-then-replace protocol -/

/-- **C2.** In every successful run of the merge writer, every filesystem
state before the final (`os.replace`) step carries the original output file
unchanged — so a crash after writing the temp file but before the replace
leaves the previous output byte-identical — and at every point the output
slot holds either the original file or the final merged file, never anything
partial. -/
theorem crash_before_replace_leaves_output_intact (st : PState) (items : List Row)
    (ss : List PState) (h : writeStepsE st items = .ok ss) :
    (∀ s ∈ ss.dropLast, s.output = st.output) ∧
    (∀ s ∈ ss, s.output = st.output ∨ s.output = (ss.getLastD st).output) := by
  cases items with
  | nil =>
      have h' : Except.ok ([] : List PState) = Except.ok ss := h
      injection h' with h''
      subst h''
      exact ⟨fun s hs => absurd hs (List.not_mem_nil s), fun s hs => absurd hs (List.not_mem_nil s)⟩
  | cons x xs =>
      obtain ⟨o, t, fns⟩ := st
      cases o with
      | none =>
          cases hs : sortRowsE (x :: xs) with
          | error e =>
              have h1 : writeStepsE ⟨Option.none, t, fns⟩ (x :: xs)
                  = (sortRowsE (x :: xs) >>= fun sortedItems =>
                      Except.ok
                        [⟨Option.none, some (⟨rowKeysSorted (sortedItems.headD []),
                            sortedItems.map (projRow (rowKeysSorted (sortedItems.headD [])))⟩
                            : CsvFile),
                          rowKeysSorted (sortedItems.headD [])⟩,
                         ⟨some (⟨rowKeysSorted (sortedItems.headD []),
                            sortedItems.map (projRow (rowKeysSorted (sortedItems.headD [])))⟩
                            : CsvFile),
                          Option.none, rowKeysSorted (sortedItems.headD [])⟩]) := rfl
              rw [h1, hs, error_bind] at h
              exact absurd h (by simp)
          | ok sorted =>
              have h1 : writeStepsE ⟨Option.none, t, fns⟩ (x :: xs)
                  = (sortRowsE (x :: xs) >>= fun sortedItems =>
                      Except.ok
                        [⟨Option.none, some (⟨rowKeysSorted (sortedItems.headD []),
                            sortedItems.map (projRow (rowKeysSorted (sortedItems.headD [])))⟩
                            : CsvFile),
                          rowKeysSorted (sortedItems.headD [])⟩,
                         ⟨some (⟨rowKeysSorted (sortedItems.headD []),
                            sortedItems.map (projRow (rowKeysSorted (sortedItems.headD [])))⟩
                            : CsvFile),
                          Option.none, rowKeysSorted (sortedItems.headD [])⟩]) := rfl
              rw [h1, hs, ok_bind] at h
              injection h with h''
              subst h''
              refine ⟨?_, ?_⟩
              · intro s hs'
                rcases List.mem_cons.mp hs' with rfl | hs''
                · rfl
                · exact absurd hs'' (List.not_mem_nil s)
              · intro s hs'
                rcases List.mem_cons.mp hs' with rfl | hs''
                · exact Or.inl rfl
                · rcases List.mem_cons.mp hs'' with rfl | hs'''
                  · exact Or.inr rfl
                  · exact absurd hs''' (List.not_mem_nil s)
      | some f =>
          cases hs : sortRowsE (x :: xs) with
          | error e =>
              have h1 : writeStepsE ⟨some f, t, fns⟩ (x :: xs)
                  = (sortRowsE (x :: xs) >>= fun sortedItems =>
                      mergeRowsE f.rows sortedItems >>= fun merged =>
                        Except.ok
                          [⟨some f,
                            some (⟨(if fns.isEmpty then rowKeysSorted (merged.headD []) else fns),
                              merged.map (projRow (if fns.isEmpty then
                                rowKeysSorted (merged.headD []) else fns))⟩ : CsvFile),
                            fns⟩,
                           ⟨some (⟨(if fns.isEmpty then rowKeysSorted (merged.headD []) else fns),
                              merged.map (projRow (if fns.isEmpty then
                                rowKeysSorted (merged.headD []) else fns))⟩ : CsvFile),
                            Option.none, fns⟩]) := rfl
              rw [h1, hs, error_bind] at h
              exact absurd h (by simp)
          | ok sorted =>
              have h1 : writeStepsE ⟨some f, t, fns⟩ (x :: xs)
                  = (sortRowsE (x :: xs) >>= fun sortedItems =>
                      mergeRowsE f.rows sortedItems >>= fun merged =>
                        Except.ok
                          [⟨some f,
                            some (⟨(if fns.isEmpty then rowKeysSorted (merged.headD []) else fns),
                              merged.map (projRow (if fns.isEmpty then
                                rowKeysSorted (merged.headD []) else fns))⟩ : CsvFile),
                            fns⟩,
                           ⟨some (⟨(if fns.isEmpty then rowKeysSorted (merged.headD []) else fns),
                              merged.map (projRow (if fns.isEmpty then
                                rowKeysSorted (merged.headD []) else fns))⟩ : CsvFile),
                            Option.none, fns⟩]) := rfl
              rw [h1, hs, ok_bind] at h
              cases hm : mergeRowsE f.rows sorted with
              | error e =>
                  rw [hm, error_bind] at h
                  exact absurd h (by simp)
              | ok merged =>
                  rw [hm, ok_bind] at h
                  injection h with h''
                  subst h''
                  refine ⟨?_, ?_⟩
                  · intro s hs'
                    rcases List.mem_cons.mp hs' with rfl | hs''
                    · rfl
                    · exact absurd hs'' (List.not_mem_nil s)
                  · intro s hs'
                    rcases List.mem_cons.mp hs' with rfl | hs''
                    · exact Or.inl rfl
                    · rcases List.mem_cons.mp hs'' with rfl | hs'''
                      · exact Or.inr rfl
                      · exact absurd hs''' (List.not_mem_nil s)

theorem crash_before_replace_witness :
    writeStepsE ⟨Option.none, Option.none, []⟩ [[("eventTimeDT", "t1")]]
        = .ok [⟨Option.none, some ⟨["eventTimeDT"], [[("eventTimeDT", "t1")]]⟩, ["eventTimeDT"]⟩,
               ⟨some ⟨["eventTimeDT"], [[("eventTimeDT", "t1")]]⟩, Option.none, ["eventTimeDT"]⟩] ∧
    ((∀ s ∈ ([⟨Option.none, some ⟨["eventTimeDT"], [[("eventTimeDT", "t1")]]⟩, ["eventTimeDT"]⟩,
          ⟨some ⟨["eventTimeDT"], [[("eventTimeDT", "t1")]]⟩, Option.none,
            ["eventTimeDT"]⟩] : List PState).dropLast,
        s.output = (⟨Option.none, Option.none, []⟩ : PState).output) ∧
     (∀ s ∈ ([⟨Option.none, some ⟨["eventTimeDT"], [[("eventTimeDT", "t1")]]⟩, ["eventTimeDT"]⟩,
          ⟨some ⟨["eventTimeDT"], [[("eventTimeDT", "t1")]]⟩, Option.none,
            ["eventTimeDT"]⟩] : List PState),
        s.output = (⟨Option.none, Option.none, []⟩ : PState).output ∨
        s.output = (([⟨Option.none, some ⟨["eventTimeDT"], [[("eventTimeDT", "t1")]]⟩,
            ["eventTimeDT"]⟩,
          ⟨some ⟨["eventTimeDT"], [[("eventTimeDT", "t1")]]⟩, Option.none,
            ["eventTimeDT"]⟩] : List PState).getLastD
            ⟨Option.none, Option.none, []⟩).output)) :=
  ⟨rfl, crash_before_replace_leaves_output_intact ⟨Option.none, Option.none, []⟩
    [[("eventTimeDT", "t1")]] _ rfl⟩

/-- **C5 (code bug).** The header is *not* the running union of observed
field names: `_update_fieldnames` is defined (lines 192-195, modelled by
`update_fieldnames`) but never called, so after the output file is created
the header stays frozen at the first batch's first record's sorted keys, and
a field (`severity`) first seen in a later batch is silently dropped
(`extrasaction='ignore'`) and never appears as a column — although the
intended running union (`update_fieldnames`) would contain it. -/
theorem header_frozen_at_first_batch :
    (writeToCsvE ⟨Option.none, Option.none, []⟩ [c5r1] >>= fun s₁ =>
        writeToCsvE s₁ [c5r2])
      = .ok ⟨some ⟨["eventTimeDT"],
          [[("eventTimeDT", "2024-01-01")], [("eventTimeDT", "2024-01-02")]]⟩,
        Option.none, ["eventTimeDT"]⟩ ∧
    "severity" ∉ (["eventTimeDT"] : List String) ∧
    "severity" ∈ update_fieldnames ["eventTimeDT"] [c5r2] := by
  refine ⟨?_, by decide, by decide⟩
  have h1 : writeToCsvE ⟨Option.none, Option.none, []⟩ [c5r1]
      = .ok ⟨some ⟨["eventTimeDT"], [[("eventTimeDT", "2024-01-01")]]⟩,
          Option.none, ["eventTimeDT"]⟩ := rfl
  calc (writeToCsvE ⟨Option.none, Option.none, []⟩ [c5r1] >>= fun s₁ =>
          writeToCsvE s₁ [c5r2])
      = (Except.ok (⟨some ⟨["eventTimeDT"], [[("eventTimeDT", "2024-01-01")]]⟩,
          Option.none, ["eventTimeDT"]⟩ : PState) >>= fun s₁ => writeToCsvE s₁ [c5r2]) := by
        rw [h1]
    _ = writeToCsvE ⟨some ⟨["eventTimeDT"], [[("eventTimeDT", "2024-01-01")]]⟩,
          Option.none, ["eventTimeDT"]⟩ [c5r2] := rfl
    _ = .ok ⟨some (mergedFile ["eventTimeDT"]
            ⟨["eventTimeDT"], [[("eventTimeDT", "2024-01-01")]]⟩ [c5r2]),
          Option.none, ["eventTimeDT"]⟩ :=
        writeToCsvE_some Option.none ["eventTimeDT"]
          ⟨["eventTimeDT"], [[("eventTimeDT", "2024-01-01")]]⟩ c5r2 [] (by decide) (by decide)
    _ = .ok ⟨some ⟨["eventTimeDT"],
          [[("eventTimeDT", "2024-01-01")], [("eventTimeDT", "2024-01-02")]]⟩,
        Option.none, ["eventTimeDT"]⟩ := by
        have hm : mergeRows [[("eventTimeDT", "2024-01-01")]] (sortRows [c5r2])
            = [[("eventTimeDT", "2024-01-01")], c5r2] := by
          rw [show sortRows [c5r2] = [c5r2] from rfl]
          simp only [mergeRows]
          rw [if_pos (show rkeyD [("eventTimeDT", "2024-01-01")] ≤ rkeyD c5r2 from
            String.le_iff_toList_le.mpr (by decide))]
        simp only [mergedFile, mergedHeader, hm]
        rfl

/-! ## C4: merging batches in either order / as one batch -/

theorem mergedFile_of_fns_ne_nil {fns : List String} (hfns : fns ≠ [])
    (f : CsvFile) (items : List Row) :
    mergedFile fns f items = ⟨fns, (mergeRows f.rows (sortRows items)).map (projRow fns)⟩ := by
  have hie : fns.isEmpty = false := by
    cases fns with
    | nil => exact absurd rfl hfns
    | cons a l => rfl
  unfold mergedFile mergedHeader
  rw [hie]
  rfl

theorem map_proj_proj (fns : List String) (l : List Row) :
    (l.map (projRow fns)).map (projRow fns) = l.map (projRow fns) := by
  rw [List.map_map]
  exact List.map_congr_left (fun r _ => projRow_projRow fns r)

/-- Per-key slice of the result of two successive merge-writes (existing rows
`E`, then batch `X`, then batch `Y`), all through the header projection. -/
theorem write2_filter {fns : List String} (hkey : "eventTimeDT" ∈ fns)
    (E X Y : List Row) (hsE : SortedRows E) (k : String) :
    keyFilter k ((mergeRows ((mergeRows E (sortRows X)).map (projRow fns))
        (sortRows Y)).map (projRow fns))
      = (keyFilter k E).map (projRow fns) ++ ((keyFilter k X).map (projRow fns)
        ++ (keyFilter k Y).map (projRow fns)) := by
  have hsR1 : SortedRows ((mergeRows E (sortRows X)).map (projRow fns)) :=
    sortedRows_map_proj (mergeRows_sorted hsE (sortRows_sorted X)) fns
  rw [keyFilter_map_proj hkey, mergeRows_filter k _ _ hsR1, sortRows_filter,
    keyFilter_map_proj hkey, mergeRows_filter k _ _ hsE, sortRows_filter]
  simp only [List.map_append, map_proj_proj, List.append_assoc]

/-- Per-key slice of a single merge-write. -/
theorem write1_filter {fns : List String} (hkey : "eventTimeDT" ∈ fns)
    (E Z : List Row) (hsE : SortedRows E) (k : String) :
    keyFilter k ((mergeRows E (sortRows Z)).map (projRow fns))
      = (keyFilter k E).map (projRow fns) ++ (keyFilter k Z).map (projRow fns) := by
  rw [keyFilter_map_proj hkey, mergeRows_filter k _ _ hsE, sortRows_filter, List.map_append]

theorem write2_perm {fns : List String} (E X Y : List Row) :
    List.Perm
      ((mergeRows ((mergeRows E (sortRows X)).map (projRow fns))
          (sortRows Y)).map (projRow fns))
      (E.map (projRow fns) ++ (X.map (projRow fns) ++ Y.map (projRow fns))) := by
  refine ((mergeRows_perm _ _).map (projRow fns)).trans ?_
  rw [List.map_append, map_proj_proj]
  refine (List.Perm.append ((mergeRows_perm _ _).map (projRow fns))
    ((sortRows_perm Y).map (projRow fns))).trans ?_
  rw [List.map_append, List.append_assoc]
  exact List.Perm.append_left _
    (List.Perm.append ((sortRows_perm X).map (projRow fns)) (List.Perm.refl _))

/-- **C4 (amended).** Fix an existing output file (sorted, string-keyed rows)
and a stable nonempty header containing the sort key. For any two nonempty
string-keyed batches `A`, `B`: merging `A` then `B` produces *exactly* the
same final state as merging the single concatenated batch `A ++ B`; merging
`B` then `A` produces the same row multiset in the same ascending-by-key
order (equal per-key multiset, both sorted); and the two orders produce the
*identical* file whenever no record of `A` shares a sort key with a record of
`B`. (With shared keys across batches the row orders can differ on the tied
keys — see the counterexample — which is the only part of the original claim
that fails.) -/
theorem batch_merge_order_insensitive
    (f : CsvFile) (t : Option CsvFile) (fns : List String) (A B : List Row)
    (hfns : fns ≠ [])
    (hkey : "eventTimeDT" ∈ fns)
    (hsE : SortedRows f.rows)
    (hkE : KeyedRows f.rows)
    (hA : A ≠ []) (hB : B ≠ [])
    (hkA : KeyedRows A) (hkB : KeyedRows B) :
    ∃ s₁ s₂ s₃,
      (writeToCsvE ⟨some f, t, fns⟩ A >>= fun s => writeToCsvE s B) = .ok s₁ ∧
      (writeToCsvE ⟨some f, t, fns⟩ B >>= fun s => writeToCsvE s A) = .ok s₂ ∧
      writeToCsvE ⟨some f, t, fns⟩ (A ++ B) = .ok s₃ ∧
      s₁ = s₃ ∧
      (∃ f₁ f₂, s₁.output = some f₁ ∧ s₂.output = some f₂ ∧
        List.Perm f₁.rows f₂.rows ∧ SortedRows f₁.rows ∧ SortedRows f₂.rows) ∧
      ((∀ a ∈ A, ∀ b ∈ B, rkeyD a ≠ rkeyD b) → s₁ = s₂) := by
  obtain ⟨a₀, A', rfl⟩ := List.exists_cons_of_ne_nil hA
  obtain ⟨b₀, B', rfl⟩ := List.exists_cons_of_ne_nil hB
  have hmf := mergedFile_of_fns_ne_nil hfns
  -- first and second writes of run 1 (A then B)
  have hw1 : writeToCsvE ⟨some f, t, fns⟩ (a₀ :: A')
      = .ok ⟨some ⟨fns, (mergeRows f.rows (sortRows (a₀ :: A'))).map (projRow fns)⟩,
          Option.none, fns⟩ := by
    rw [writeToCsvE_some t fns f a₀ A' hkA hkE, hmf]
  have hw2 : writeToCsvE
        ⟨some ⟨fns, (mergeRows f.rows (sortRows (a₀ :: A'))).map (projRow fns)⟩,
          Option.none, fns⟩ (b₀ :: B')
      = .ok ⟨some ⟨fns, (mergeRows
            ((mergeRows f.rows (sortRows (a₀ :: A'))).map (projRow fns))
            (sortRows (b₀ :: B'))).map (projRow fns)⟩, Option.none, fns⟩ := by
    rw [writeToCsvE_some Option.none fns _ b₀ B' hkB (keyedRows_map_proj hkey _), hmf]
  -- the two writes of run 2 (B then A)
  have hw3 : writeToCsvE ⟨some f, t, fns⟩ (b₀ :: B')
      = .ok ⟨some ⟨fns, (mergeRows f.rows (sortRows (b₀ :: B'))).map (projRow fns)⟩,
          Option.none, fns⟩ := by
    rw [writeToCsvE_some t fns f b₀ B' hkB hkE, hmf]
  have hw4 : writeToCsvE
        ⟨some ⟨fns, (mergeRows f.rows (sortRows (b₀ :: B'))).map (projRow fns)⟩,
          Option.none, fns⟩ (a₀ :: A')
      = .ok ⟨some ⟨fns, (mergeRows
            ((mergeRows f.rows (sortRows (b₀ :: B'))).map (projRow fns))
            (sortRows (a₀ :: A'))).map (projRow fns)⟩, Option.none, fns⟩ := by
    rw [writeToCsvE_some Option.none fns _ a₀ A' hkA (keyedRows_map_proj hkey _), hmf]
  -- the single combined write
  have hkAB : KeyedRows (a₀ :: A' ++ b₀ :: B') := by
    intro r hr
    rcases List.mem_append.mp hr with h | h
    · exact hkA r h
    · exact hkB r h
  have hw5 : writeToCsvE ⟨some f, t, fns⟩ (a₀ :: A' ++ b₀ :: B')
      = .ok ⟨some ⟨fns, (mergeRows f.rows (sortRows (a₀ :: A' ++ b₀ :: B'))).map
            (projRow fns)⟩, Option.none, fns⟩ := by
    rw [show a₀ :: A' ++ b₀ :: B' = a₀ :: (A' ++ b₀ :: B') from rfl,
      writeToCsvE_some t fns f a₀ (A' ++ b₀ :: B') hkAB hkE, hmf]
  -- run values
  refine ⟨⟨some ⟨fns, (mergeRows ((mergeRows f.rows (sortRows (a₀ :: A'))).map (projRow fns))
        (sortRows (b₀ :: B'))).map (projRow fns)⟩, Option.none, fns⟩,
      ⟨some ⟨fns, (mergeRows ((mergeRows f.rows (sortRows (b₀ :: B'))).map (projRow fns))
        (sortRows (a₀ :: A'))).map (projRow fns)⟩, Option.none, fns⟩,
      ⟨some ⟨fns, (mergeRows f.rows (sortRows (a₀ :: A' ++ b₀ :: B'))).map (projRow fns)⟩,
        Option.none, fns⟩,
      ?_, ?_, hw5, ?_, ?_, ?_⟩
  · calc (writeToCsvE ⟨some f, t, fns⟩ (a₀ :: A') >>= fun s => writeToCsvE s (b₀ :: B'))
        = (Except.ok (⟨some ⟨fns, (mergeRows f.rows (sortRows (a₀ :: A'))).map (projRow fns)⟩,
            Option.none, fns⟩ : PState) >>= fun s => writeToCsvE s (b₀ :: B')) := by rw [hw1]
      _ = _ := hw2
  · calc (writeToCsvE ⟨some f, t, fns⟩ (b₀ :: B') >>= fun s => writeToCsvE s (a₀ :: A'))
        = (Except.ok (⟨some ⟨fns, (mergeRows f.rows (sortRows (b₀ :: B'))).map (projRow fns)⟩,
            Option.none, fns⟩ : PState) >>= fun s => writeToCsvE s (a₀ :: A')) := by rw [hw3]
      _ = _ := hw4
  · -- A-then-B equals the single combined batch
    have hsorted1 : SortedRows ((mergeRows
        ((mergeRows f.rows (sortRows (a₀ :: A'))).map (projRow fns))
        (sortRows (b₀ :: B'))).map (projRow fns)) :=
      sortedRows_map_proj (mergeRows_sorted
        (sortedRows_map_proj (mergeRows_sorted hsE (sortRows_sorted _)) fns)
        (sortRows_sorted _)) fns
    have hsorted3 : SortedRows ((mergeRows f.rows
        (sortRows (a₀ :: A' ++ b₀ :: B'))).map (projRow fns)) :=
      sortedRows_map_proj (mergeRows_sorted hsE (sortRows_sorted _)) fns
    have hrows : (mergeRows ((mergeRows f.rows (sortRows (a₀ :: A'))).map (projRow fns))
        (sortRows (b₀ :: B'))).map (projRow fns)
        = (mergeRows f.rows (sortRows (a₀ :: A' ++ b₀ :: B'))).map (projRow fns) := by
      refine sorted_ext _ _ hsorted1 hsorted3 ?_
      intro k
      rw [write2_filter hkey _ _ _ hsE, write1_filter hkey _ _ hsE, keyFilter_append,
        List.map_append]
    rw [hrows]
  · -- same multiset, both sorted
    refine ⟨_, _, rfl, rfl, ?_, ?_, ?_⟩
    · refine (write2_perm _ _ _).trans (.trans ?_ (write2_perm _ _ _).symm)
      exact List.Perm.append (List.Perm.refl _) (List.perm_append_comm)
    · exact sortedRows_map_proj (mergeRows_sorted
        (sortedRows_map_proj (mergeRows_sorted hsE (sortRows_sorted _)) fns)
        (sortRows_sorted _)) fns
    · exact sortedRows_map_proj (mergeRows_sorted
        (sortedRows_map_proj (mergeRows_sorted hsE (sortRows_sorted _)) fns)
        (sortRows_sorted _)) fns
  · -- disjoint keys across batches: the two orders coincide exactly
    intro hdisj
    have hone : ∀ k, keyFilter k (a₀ :: A') = [] ∨ keyFilter k (b₀ :: B') = [] := by
      intro k
      by_cases hA' : keyFilter k (a₀ :: A') = []
      · exact Or.inl hA'
      · right
        obtain ⟨a, ha, hak⟩ : ∃ a ∈ a₀ :: A', rkeyD a = k := by
          cases hfa : keyFilter k (a₀ :: A') with
          | nil => exact absurd hfa hA'
          | cons z zs =>
              have hz : z ∈ keyFilter k (a₀ :: A') := by
                rw [hfa]; exact List.mem_cons_self _ _
              obtain ⟨hz1, hz2⟩ := List.mem_filter.mp hz
              exact ⟨z, hz1, by simpa using hz2⟩
        refine List.filter_eq_nil_iff.mpr ?_
        intro b hb
        simp only [beq_iff_eq]
        intro hbk
        exact hdisj a ha b hb (by rw [hak, hbk])
    have hsorted1 : SortedRows ((mergeRows
        ((mergeRows f.rows (sortRows (a₀ :: A'))).map (projRow fns))
        (sortRows (b₀ :: B'))).map (projRow fns)) :=
      sortedRows_map_proj (mergeRows_sorted
        (sortedRows_map_proj (mergeRows_sorted hsE (sortRows_sorted _)) fns)
        (sortRows_sorted _)) fns
    have hsorted2 : SortedRows ((mergeRows
        ((mergeRows f.rows (sortRows (b₀ :: B'))).map (projRow fns))
        (sortRows (a₀ :: A'))).map (projRow fns)) :=
      sortedRows_map_proj (mergeRows_sorted
        (sortedRows_map_proj (mergeRows_sorted hsE (sortRows_sorted _)) fns)
        (sortRows_sorted _)) fns
    have hrows : (mergeRows ((mergeRows f.rows (sortRows (a₀ :: A'))).map (projRow fns))
        (sortRows (b₀ :: B'))).map (projRow fns)
        = (mergeRows ((mergeRows f.rows (sortRows (b₀ :: B'))).map (projRow fns))
            (sortRows (a₀ :: A'))).map (projRow fns) := by
      refine sorted_ext _ _ hsorted1 hsorted2 ?_
      intro k
      rw [write2_filter hkey _ _ _ hsE, write2_filter hkey _ _ _ hsE]
      rcases hone k with h | h
      · rw [h]; simp
      · rw [h]; simp
    rw [hrows]

theorem batch_merge_order_insensitive_witness :
    ((["eventTimeDT"] : List String) ≠ [] ∧
     "eventTimeDT" ∈ (["eventTimeDT"] : List String) ∧
     SortedRows ([[("eventTimeDT", "s")]] : List Row) ∧
     KeyedRows ([[("eventTimeDT", "s")]] : List Row) ∧
     ([[("eventTimeDT", "a")]] : List Row) ≠ [] ∧
     ([[("eventTimeDT", "b")]] : List Row) ≠ [] ∧
     KeyedRows ([[("eventTimeDT", "a")]] : List Row) ∧
     KeyedRows ([[("eventTimeDT", "b")]] : List Row)) ∧
    (∃ s₁ s₂ s₃,
      (writeToCsvE ⟨some ⟨["eventTimeDT"], [[("eventTimeDT", "s")]]⟩, Option.none,
          ["eventTimeDT"]⟩ [[("eventTimeDT", "a")]] >>= fun s =>
        writeToCsvE s [[("eventTimeDT", "b")]]) = .ok s₁ ∧
      (writeToCsvE ⟨some ⟨["eventTimeDT"], [[("eventTimeDT", "s")]]⟩, Option.none,
          ["eventTimeDT"]⟩ [[("eventTimeDT", "b")]] >>= fun s =>
        writeToCsvE s [[("eventTimeDT", "a")]]) = .ok s₂ ∧
      writeToCsvE ⟨some ⟨["eventTimeDT"], [[("eventTimeDT", "s")]]⟩, Option.none,
          ["eventTimeDT"]⟩ ([[("eventTimeDT", "a")]] ++ [[("eventTimeDT", "b")]]) = .ok s₃ ∧
      s₁ = s₃ ∧
      (∃ f₁ f₂, s₁.output = some f₁ ∧ s₂.output = some f₂ ∧
        List.Perm f₁.rows f₂.rows ∧ SortedRows f₁.rows ∧ SortedRows f₂.rows) ∧
      ((∀ a ∈ ([[("eventTimeDT", "a")]] : List Row), ∀ b ∈ ([[("eventTimeDT", "b")]] : List Row),
          rkeyD a ≠ rkeyD b) → s₁ = s₂)) :=
  ⟨⟨by decide, by decide, by decide, by decide, by decide, by decide, by decide, by decide⟩,
   batch_merge_order_insensitive ⟨["eventTimeDT"], [[("eventTimeDT", "s")]]⟩ Option.none
     ["eventTimeDT"] [[("eventTimeDT", "a")]] [[("eventTimeDT", "b")]]
     (by decide) (by decide) (by decide) (by decide) (by decide) (by decide)
     (by decide) (by decide)⟩

/-- **C4 (counterexample).** With an existing (empty) output file and two
one-record batches sharing the same sort key `"t"`, merging A then B puts A's
row first while merging B then A puts B's row first: the final row orderings
differ, refuting the claim's "this equality must hold even when records of A
and B share equal sort keys". -/
theorem equal_key_batches_order_sensitive :
    (writeToCsvE ⟨some ⟨["eventTimeDT", "v"], []⟩, Option.none, ["eventTimeDT", "v"]⟩
        [[("eventTimeDT", "t"), ("v", "1")]] >>= fun s =>
      writeToCsvE s [[("eventTimeDT", "t"), ("v", "2")]])
    ≠ (writeToCsvE ⟨some ⟨["eventTimeDT", "v"], []⟩, Option.none, ["eventTimeDT", "v"]⟩
        [[("eventTimeDT", "t"), ("v", "2")]] >>= fun s =>
      writeToCsvE s [[("eventTimeDT", "t"), ("v", "1")]]) := by
  have hmerge0 : ∀ r : Row, mergeRows ([] : List Row) [r] = [r] := by
    intro r
    simp [mergeRows]
  have hmerge1 : ∀ r r' : Row, rkeyD r ≤ rkeyD r' →
      mergeRows [r] [r'] = [r, r'] := by
    intro r r' h
    simp only [mergeRows]
    rw [if_pos h]
  have hrun : ∀ rX rY : Row, (rkey rX).isSome → (rkey rY).isSome →
      rkeyD (projRow ["eventTimeDT", "v"] rX) ≤ rkeyD rY →
      (writeToCsvE ⟨some ⟨["eventTimeDT", "v"], []⟩, Option.none, ["eventTimeDT", "v"]⟩
          [rX] >>= fun s => writeToCsvE s [rY])
        = .ok ⟨some ⟨["eventTimeDT", "v"],
            [projRow ["eventTimeDT", "v"] rX, projRow ["eventTimeDT", "v"] rY]⟩,
          Option.none, ["eventTimeDT", "v"]⟩ := by
    intro rX rY hX hY hle
    have hkX : KeyedRows [rX] := by
      intro r hr
      rcases List.mem_cons.mp hr with rfl | hr'
      · exact hX
      · exact absurd hr' (List.not_mem_nil r)
    have hkY : KeyedRows [rY] := by
      intro r hr
      rcases List.mem_cons.mp hr with rfl | hr'
      · exact hY
      · exact absurd hr' (List.not_mem_nil r)
    have hw1 : writeToCsvE ⟨some ⟨["eventTimeDT", "v"], []⟩, Option.none,
        ["eventTimeDT", "v"]⟩ [rX]
        = .ok ⟨some ⟨["eventTimeDT", "v"], [projRow ["eventTimeDT", "v"] rX]⟩,
            Option.none, ["eventTimeDT", "v"]⟩ := by
      rw [writeToCsvE_some Option.none ["eventTimeDT", "v"] ⟨["eventTimeDT", "v"], []⟩ rX []
          hkX (by intro r hr; exact absurd hr (List.not_mem_nil r)),
        mergedFile_of_fns_ne_nil (by decide)]
      rw [show sortRows [rX] = [rX] from rfl, hmerge0]
      rfl
    have hw2 : writeToCsvE ⟨some ⟨["eventTimeDT", "v"], [projRow ["eventTimeDT", "v"] rX]⟩,
          Option.none, ["eventTimeDT", "v"]⟩ [rY]
        = .ok ⟨some ⟨["eventTimeDT", "v"],
            [projRow ["eventTimeDT", "v"] rX, projRow ["eventTimeDT", "v"] rY]⟩,
          Option.none, ["eventTimeDT", "v"]⟩ := by
      rw [writeToCsvE_some Option.none ["eventTimeDT", "v"]
          ⟨["eventTimeDT", "v"], [projRow ["eventTimeDT", "v"] rX]⟩ rY [] hkY
          (keyedRows_map_proj (by decide) [rX]),
        mergedFile_of_fns_ne_nil (by decide)]
      rw [show sortRows [rY] = [rY] from rfl, hmerge1 _ _ hle]
      simp [projRow_projRow]
    calc (writeToCsvE ⟨some ⟨["eventTimeDT", "v"], []⟩, Option.none, ["eventTimeDT", "v"]⟩
            [rX] >>= fun s => writeToCsvE s [rY])
        = (Except.ok (⟨some ⟨["eventTimeDT", "v"], [projRow ["eventTimeDT", "v"] rX]⟩,
            Option.none, ["eventTimeDT", "v"]⟩ : PState) >>= fun s =>
              writeToCsvE s [rY]) := by rw [hw1]
      _ = _ := hw2
  rw [hrun [("eventTimeDT", "t"), ("v", "1")] [("eventTimeDT", "t"), ("v", "2")]
      (by decide) (by decide) (String.le_iff_toList_le.mpr (by decide)),
    hrun [("eventTimeDT", "t"), ("v", "2")] [("eventTimeDT", "t"), ("v", "1")]
      (by decide) (by decide) (String.le_iff_toList_le.mpr (by decide))]
  intro h
  injection h with h'
  exact absurd h' (by decide)

/-! ### List helpers for the rate limiter proofs -/

theorem dropWhile_spec {α : Type} (p : α → Bool) (l : List α) :
    ∃ k, k ≤ l.length ∧ l.dropWhile p = l.drop k ∧
      ∀ i x, i < k → l.get? i = some x → p x = true := by
  induction l with
  | nil => exact ⟨0, by simp, rfl, by intro i x h; omega⟩
  | cons a l ih =>
      by_cases hp : p a
      · obtain ⟨k, hk, hd, hget⟩ := ih
        refine ⟨k + 1, by simpa using Nat.succ_le_succ hk, ?_, ?_⟩
        · rw [List.dropWhile_cons_of_pos hp, hd]
          rfl
        · intro i x hi hx
          cases i with
          | zero =>
              have : a = x := by simpa using hx
              exact this ▸ hp
          | succ j => exact hget j x (by omega) (by simpa using hx)
      · exact ⟨0, by simp, by rw [List.dropWhile_cons_of_neg hp]; rfl, by intro i x h; omega⟩

theorem get?_drop_add {α : Type} : ∀ (l : List α) (k i : ℕ),
    (l.drop k).get? i = l.get? (k + i)
  | _, 0, _ => by simp
  | [], k + 1, i => by simp
  | a :: l, k + 1, i => by
      rw [List.drop_succ_cons, get?_drop_add l k i]
      have h : k + 1 + i = (k + i) + 1 := by omega
      rw [h]
      rfl

theorem filter_eq_dropWhile_not {p : ℤ → Bool}
    (hp : ∀ a b : ℤ, a < b → p a = true → p b = true) :
    ∀ {l : List ℤ}, l.Pairwise (· < ·) →
      l.filter p = l.dropWhile (fun x => !(p x)) := by
  intro l
  induction l with
  | nil => intro _; rfl
  | cons a l ih =>
      intro hl
      by_cases hpa : p a
      · rw [List.filter_cons_of_pos hpa,
          List.dropWhile_cons_of_neg (by simp [hpa])]
        congr 1
        refine List.filter_eq_self.mpr ?_
        intro b hb
        exact hp a b ((List.pairwise_cons.mp hl).1 b hb) hpa
      · rw [List.filter_cons_of_neg hpa,
          List.dropWhile_cons_of_pos (by simp [hpa])]
        exact ih (List.pairwise_cons.mp hl).2

theorem filter_eq_takeWhile_of_anti {p : ℤ → Bool}
    (hp : ∀ a b : ℤ, a < b → p b = true → p a = true) :
    ∀ {l : List ℤ}, l.Pairwise (· < ·) → l.filter p = l.takeWhile p := by
  intro l
  induction l with
  | nil => intro _; rfl
  | cons a l ih =>
      intro hl
      by_cases hpa : p a
      · rw [List.filter_cons_of_pos hpa, List.takeWhile_cons_of_pos hpa]
        congr 1
        exact ih (List.pairwise_cons.mp hl).2
      · rw [List.filter_cons_of_neg hpa, List.takeWhile_cons_of_neg hpa]
        refine List.filter_eq_nil_iff.mpr ?_
        intro b hb hpb
        exact hpa (hp a b ((List.pairwise_cons.mp hl).1 b hb) hpb)

theorem get?_takeWhile_eq {α : Type} (p : α → Bool) :
    ∀ (l : List α) (i : ℕ), i < (l.takeWhile p).length →
      l.get? i = (l.takeWhile p).get? i := by
  intro l
  induction l with
  | nil => intro i h; simp at h
  | cons a l ih =>
      intro i h
      by_cases hpa : p a
      · rw [List.takeWhile_cons_of_pos hpa] at h ⊢
        cases i with
        | zero => rfl
        | succ j =>
            have hj : j < (l.takeWhile p).length := by simpa using h
            simpa using ih j hj
      · rw [List.takeWhile_cons_of_neg hpa] at h
        simp at h

/-- Any half-open trailing window of width `d` over a strictly increasing,
`d`-spaced admission history holds at most `K` admissions. -/
theorem spaced_window_bound {d : ℤ} {K : ℕ} {h : List ℤ}
    (hasc : h.Pairwise (· < ·)) (hsp : Spaced d K h) (u : ℤ) :
    (h.filter (fun x => decide (u < x) && decide (x ≤ u + d))).length ≤ K := by
  have hsplit : h.filter (fun x => decide (u < x) && decide (x ≤ u + d))
      = (h.filter (fun x => decide (u < x))).filter (fun x => decide (x ≤ u + d)) := by
    rw [List.filter_filter]
    refine List.filter_congr ?_
    intro x _
    exact Bool.and_comm _ _
  have hdw : h.filter (fun x => decide (u < x))
      = h.dropWhile (fun x => !(decide (u < x))) :=
    filter_eq_dropWhile_not (by
      intro a b hab ha
      have : u < a := of_decide_eq_true ha
      exact decide_eq_true (lt_trans this hab)) hasc
  obtain ⟨k, hk, hdrop, hdropped⟩ := dropWhile_spec (fun x : ℤ => !(decide (u < x))) h
  have hgd : h.filter (fun x => decide (u < x)) = h.drop k := by rw [hdw, hdrop]
  have hgasc : (h.filter (fun x => decide (u < x))).Pairwise (· < ·) := hasc.filter _
  have htw : (h.filter (fun x => decide (u < x))).filter (fun x => decide (x ≤ u + d))
      = (h.filter (fun x => decide (u < x))).takeWhile (fun x => decide (x ≤ u + d)) :=
    filter_eq_takeWhile_of_anti (by
      intro a b hab hb
      have : b ≤ u + d := of_decide_eq_true hb
      exact decide_eq_true (le_of_lt (lt_of_lt_of_le hab this))) hgasc
  rw [hsplit, htw]
  by_contra hcon
  push_neg at hcon
  obtain ⟨y, hy⟩ : ∃ y, ((h.filter (fun x => decide (u < x))).takeWhile
      (fun x => decide (x ≤ u + d))).get? K = some y := by
    cases hcase : ((h.filter (fun x => decide (u < x))).takeWhile
        (fun x => decide (x ≤ u + d))).get? K with
    | none =>
        have := List.get?_eq_none.mp hcase
        omega
    | some y => exact ⟨y, rfl⟩
  have hyle : y ≤ u + d := by
    have hmem : y ∈ (h.filter (fun x => decide (u < x))).takeWhile
        (fun x => decide (x ≤ u + d)) := List.get?_mem hy
    simpa using List.mem_takeWhile_imp hmem
  have hyg : (h.filter (fun x => decide (u < x))).get? K = some y := by
    rw [get?_takeWhile_eq _ _ K hcon]
    exact hy
  have hglen : K < (h.filter (fun x => decide (u < x))).length :=
    lt_of_lt_of_le hcon (List.takeWhile_sublist _).length_le
  obtain ⟨x₀, hx₀⟩ : ∃ x₀, (h.filter (fun x => decide (u < x))).get? 0 = some x₀ := by
    cases hcase : (h.filter (fun x => decide (u < x))).get? 0 with
    | none =>
        have hlen := List.get?_eq_none.mp hcase
        omega
    | some x₀ => exact ⟨x₀, rfl⟩
  have hx₀u : u < x₀ := by
    have hmem : x₀ ∈ h.filter (fun x => decide (u < x)) := List.get?_mem hx₀
    exact of_decide_eq_true (List.mem_filter.mp hmem).2
  have h0 : h.get? k = some x₀ := by
    have hh := hx₀
    rw [hgd, get?_drop_add] at hh
    simpa using hh
  have hKk : h.get? (k + K) = some y := by
    have hh := hyg
    rw [hgd, get?_drop_add] at hh
    exact hh
  have := hsp k x₀ y h0 hKk
  omega

/-! ### The rate limiter's inductive step -/

theorem deque_at_call {d : ℤ} {hist : List ℤ} {prev t : ℤ} (hpt : prev ≤ t)
    (hasc : hist.Pairwise (· < ·)) :
    evictOld d t (hist.filter (fun x => decide (prev - x ≤ d)))
      = hist.filter (fun x => decide (t - x ≤ d)) := by
  have hfun : (fun x : ℤ => decide (d < t - x)) = (fun x => !(decide (t - x ≤ d))) := by
    funext x
    by_cases hx : t - x ≤ d
    · simp [hx, not_lt.mpr hx]
    · simp [hx, lt_of_not_le hx]
  unfold evictOld
  rw [hfun, ← filter_eq_dropWhile_not (by
      intro a b hab ha
      have : t - a ≤ d := of_decide_eq_true ha
      exact decide_eq_true (by omega)) (hasc.filter _)]
  rw [List.filter_filter]
  refine List.filter_congr ?_
  intro x _
  by_cases hx : t - x ≤ d
  · have hx' : prev - x ≤ d := by omega
    simp [hx, hx']
  · simp [hx]

theorem waitTimeCalc_ge_minute {L H : ℕ} {t : ℤ} {q1m q1h : List ℤ}
    (hm : L ≤ q1m.length) :
    60 - (t - q1m.headI) ≤ waitTimeCalc L H t q1m q1h := by
  simp only [waitTimeCalc]
  rw [if_pos hm]
  by_cases hh : H ≤ q1h.length
  · rw [if_pos hh]
    exact le_trans (le_max_right _ _) (le_max_left _ _)
  · rw [if_neg hh]
    exact le_max_right _ _

theorem waitTimeCalc_ge_hour {L H : ℕ} {t : ℤ} {q1m q1h : List ℤ}
    (hh : H ≤ q1h.length) :
    3600 - (t - q1h.headI) ≤ waitTimeCalc L H t q1m q1h := by
  simp only [waitTimeCalc]
  rw [if_pos hh]
  exact le_max_right _ _

theorem waitTimeCalc_nonneg {L H : ℕ} {t : ℤ} {q1m q1h : List ℤ} :
    0 ≤ waitTimeCalc L H t q1m q1h := by
  simp only [waitTimeCalc]
  by_cases hm : L ≤ q1m.length <;> by_cases hh : H ≤ q1h.length <;>
    simp [hm, hh, le_max_iff]

/-- The single-window spacing step: appending the admission `a` keeps the
history `d`-spaced, given what the code's wait path guarantees about the
full-deque case. -/
theorem spaced_append {d : ℤ} {K : ℕ} (hK : 1 ≤ K) {hist : List ℤ} {t a : ℤ}
    (hasc : hist.Pairwise (· < ·)) (hsp : Spaced d K hist)
    (hlt : ∀ x ∈ hist, x < t) (hta : t ≤ a)
    (hcode : K ≤ (hist.filter (fun x => decide (t - x ≤ d))).length →
      (hist.filter (fun x => decide (t - x ≤ d))).headI + d ≤ a) :
    Spaced d K (hist ++ [a]) := by
  intro i x y hx hy
  by_cases hiK : i + K < hist.length
  · rw [List.get?_append (by omega)] at hx
    rw [List.get?_append hiK] at hy
    exact hsp i x y hx hy
  · by_cases hiK2 : i + K = hist.length
    · -- the new pair: y is the appended admission
      have hya : y = a := by
        rw [List.get?_append_right (by omega)] at hy
        have : i + K - hist.length = 0 := by omega
        rw [this] at hy
        simpa using hy.symm
      subst hya
      have hilen : i < hist.length := by omega
      rw [List.get?_append hilen] at hx
      -- identify the call-time deque as a drop-suffix of the history
      have hdw : hist.filter (fun z => decide (t - z ≤ d))
          = hist.dropWhile (fun z => !(decide (t - z ≤ d))) :=
        filter_eq_dropWhile_not (by
          intro p q hpq hp
          have : t - p ≤ d := of_decide_eq_true hp
          exact decide_eq_true (by omega)) hasc
      obtain ⟨k, hk, hdrop, hdropped⟩ :=
        dropWhile_spec (fun z : ℤ => !(decide (t - z ≤ d))) hist
      have hqd : hist.filter (fun z => decide (t - z ≤ d)) = hist.drop k := by
        rw [hdw, hdrop]
      -- the deque never holds more than K live entries
      have hqK : (hist.filter (fun z => decide (t - z ≤ d))).length ≤ K := by
        by_contra hcon
        push_neg at hcon
        have hklen : k + K < hist.length := by
          have := congrArg List.length hqd
          rw [List.length_drop] at this
          omega
        obtain ⟨x₀, hx₀⟩ : ∃ x₀, hist.get? k = some x₀ := by
          cases hcase : hist.get? k with
          | none => have := List.get?_eq_none.mp hcase; omega
          | some x₀ => exact ⟨x₀, rfl⟩
        obtain ⟨y₀, hy₀⟩ : ∃ y₀, hist.get? (k + K) = some y₀ := by
          cases hcase : hist.get? (k + K) with
          | none => have := List.get?_eq_none.mp hcase; omega
          | some y₀ => exact ⟨y₀, rfl⟩
        have hx₀live : t - x₀ ≤ d := by
          have hmem : x₀ ∈ hist.filter (fun z => decide (t - z ≤ d)) := by
            rw [hqd]
            have : (hist.drop k).get? 0 = some x₀ := by
              rw [get?_drop_add]
              simpa using hx₀
            exact List.get?_mem this
          exact of_decide_eq_true (List.mem_filter.mp hmem).2
        have hy₀t : y₀ < t := hlt y₀ (List.get?_mem hy₀)
        have := hsp k x₀ y₀ hx₀ hy₀
        omega
      -- case split: is the row at index i inside the live deque or evicted?
      by_cases hik : i < k
      · have := hdropped i x hik hx
        have hxold : ¬ (t - x ≤ d) := by
          have hb : (decide (t - x ≤ d)) = false := by
            cases hdec : decide (t - x ≤ d) with
            | false => rfl
            | true => rw [hdec] at this; simp at this
          intro hc
          rw [decide_eq_true hc] at hb
          cases hb
        omega
      · -- then the deque is exactly full and x is its oldest entry
        have hqlen : (hist.filter (fun z => decide (t - z ≤ d))).length
            = hist.length - k := by
          rw [hqd, List.length_drop]
        have hki : k = i := by omega
        have hKle : K ≤ (hist.filter (fun z => decide (t - z ≤ d))).length := by
          omega
        have hhead : (hist.filter (fun z => decide (t - z ≤ d))).headI = x := by
          rw [hqd]
          have h0 : (hist.drop k).get? 0 = some x := by
            rw [get?_drop_add]
            simpa [hki] using hx
          cases hcase : hist.drop k with
          | nil => rw [hcase] at h0; simp at h0
          | cons z zs =>
              rw [hcase] at h0
              simp at h0
              simp [h0]
        have := hcode hKle
        rw [hhead] at this
        exact this
    · rw [List.get?_append_right (by omega)] at hy
      have hge : 1 ≤ i + K - hist.length := by omega
      have hnone : ([a] : List ℤ).get? (i + K - hist.length) = none := by
        refine List.get?_eq_none.mpr ?_
        simpa using hge
      rw [hnone] at hy
      cases hy

theorem wait_eq_pos {L H : ℕ} {st : RLState} {t tw : ℤ}
    (hwt : 0 < waitTimeCalc L H t (evictOld 60 t st.minute_requests)
      (evictOld 3600 t st.hour_requests)) :
    RateLimiter.wait L H st t tw
      = (⟨evictOld 60 tw (evictOld 60 t st.minute_requests) ++ [tw],
          evictOld 3600 tw (evictOld 3600 t st.hour_requests) ++ [tw]⟩, tw) := by
  show (if 0 < waitTimeCalc L H t (evictOld 60 t st.minute_requests)
        (evictOld 3600 t st.hour_requests) then
      ((⟨evictOld 60 tw (evictOld 60 t st.minute_requests) ++ [tw],
        evictOld 3600 tw (evictOld 3600 t st.hour_requests) ++ [tw]⟩, tw) : RLState × ℤ)
    else (⟨evictOld 60 t st.minute_requests ++ [t],
        evictOld 3600 t st.hour_requests ++ [t]⟩, t)) = _
  rw [if_pos hwt]

theorem wait_eq_neg {L H : ℕ} {st : RLState} {t tw : ℤ}
    (hwt : ¬ 0 < waitTimeCalc L H t (evictOld 60 t st.minute_requests)
      (evictOld 3600 t st.hour_requests)) :
    RateLimiter.wait L H st t tw
      = (⟨evictOld 60 t st.minute_requests ++ [t],
          evictOld 3600 t st.hour_requests ++ [t]⟩, t) := by
  show (if 0 < waitTimeCalc L H t (evictOld 60 t st.minute_requests)
        (evictOld 3600 t st.hour_requests) then
      ((⟨evictOld 60 tw (evictOld 60 t st.minute_requests) ++ [tw],
        evictOld 3600 tw (evictOld 3600 t st.hour_requests) ++ [tw]⟩, tw) : RLState × ℤ)
    else (⟨evictOld 60 t st.minute_requests ++ [t],
        evictOld 3600 t st.hour_requests ++ [t]⟩, t)) = _
  rw [if_neg hwt]

theorem wait_step_inv {L H : ℕ} (hL : 1 ≤ L) (hH : 1 ≤ H)
    {hist : List ℤ} {prev : ℤ} {st : RLState}
    (hinv : RLInv L H hist prev st) {t tw : ℤ} (hts : prev < t)
    (htw : 0 < waitTimeCalc L H t (evictOld 60 t st.minute_requests)
        (evictOld 3600 t st.hour_requests) →
      t + waitTimeCalc L H t (evictOld 60 t st.minute_requests)
        (evictOld 3600 t st.hour_requests) ≤ tw) :
    RLInv L H (hist ++ [(RateLimiter.wait L H st t tw).2])
      (RateLimiter.wait L H st t tw).2 (RateLimiter.wait L H st t tw).1 := by
  obtain ⟨hasc, hbnd, hsp60, hsp3600, hqm, hqh⟩ := hinv
  have hlt : ∀ x ∈ hist, x < t := fun x hx => lt_of_le_of_lt (hbnd x hx) hts
  have hq1m : evictOld 60 t st.minute_requests
      = hist.filter (fun x => decide (t - x ≤ 60)) := by
    rw [hqm]; exact deque_at_call (le_of_lt hts) hasc
  have hq1h : evictOld 3600 t st.hour_requests
      = hist.filter (fun x => decide (t - x ≤ 3600)) := by
    rw [hqh]; exact deque_at_call (le_of_lt hts) hasc
  by_cases hwt : 0 < waitTimeCalc L H t (evictOld 60 t st.minute_requests)
      (evictOld 3600 t st.hour_requests)
  · rw [wait_eq_pos hwt]
    have hsleep := htw hwt
    have htwle : t ≤ tw := by omega
    refine ⟨?_, ?_, ?_, ?_, ?_, ?_⟩
    · refine List.pairwise_append.mpr ⟨hasc, by simp, ?_⟩
      intro x hx b hb
      rw [List.mem_singleton.mp hb]
      exact lt_of_lt_of_le (hlt x hx) htwle
    · intro x hx
      rcases List.mem_append.mp hx with h | h
      · exact le_trans (hbnd x h) (by omega)
      · rw [List.mem_singleton.mp h]
    · refine spaced_append hL hasc hsp60 hlt htwle ?_
      intro hfull
      have h2 : 60 - (t - (hist.filter (fun x => decide (t - x ≤ 60))).headI)
          ≤ waitTimeCalc L H t (evictOld 60 t st.minute_requests)
            (evictOld 3600 t st.hour_requests) := by
        rw [hq1m]
        exact waitTimeCalc_ge_minute hfull
      omega
    · refine spaced_append hH hasc hsp3600 hlt htwle ?_
      intro hfull
      have h2 : 3600 - (t - (hist.filter (fun x => decide (t - x ≤ 3600))).headI)
          ≤ waitTimeCalc L H t (evictOld 60 t st.minute_requests)
            (evictOld 3600 t st.hour_requests) := by
        rw [hq1h]
        exact waitTimeCalc_ge_hour hfull
      omega
    · show evictOld 60 tw (evictOld 60 t st.minute_requests) ++ [tw]
        = (hist ++ [tw]).filter (fun x => decide (tw - x ≤ 60))
      rw [hq1m, deque_at_call htwle hasc, List.filter_append,
        show List.filter (fun x => decide (tw - x ≤ 60)) [tw] = [tw] from by simp]
    · show evictOld 3600 tw (evictOld 3600 t st.hour_requests) ++ [tw]
        = (hist ++ [tw]).filter (fun x => decide (tw - x ≤ 3600))
      rw [hq1h, deque_at_call htwle hasc, List.filter_append,
        show List.filter (fun x => decide (tw - x ≤ 3600)) [tw] = [tw] from by simp]
  · rw [wait_eq_neg hwt]
    push_neg at hwt
    refine ⟨?_, ?_, ?_, ?_, ?_, ?_⟩
    · refine List.pairwise_append.mpr ⟨hasc, by simp, ?_⟩
      intro x hx b hb
      rw [List.mem_singleton.mp hb]
      exact hlt x hx
    · intro x hx
      rcases List.mem_append.mp hx with h | h
      · exact le_trans (hbnd x h) (le_of_lt hts)
      · rw [List.mem_singleton.mp h]
    · refine spaced_append hL hasc hsp60 hlt (le_refl t) ?_
      intro hfull
      have h2 : 60 - (t - (hist.filter (fun x => decide (t - x ≤ 60))).headI)
          ≤ waitTimeCalc L H t (evictOld 60 t st.minute_requests)
            (evictOld 3600 t st.hour_requests) := by
        rw [hq1m]
        exact waitTimeCalc_ge_minute hfull
      omega
    · refine spaced_append hH hasc hsp3600 hlt (le_refl t) ?_
      intro hfull
      have h2 : 3600 - (t - (hist.filter (fun x => decide (t - x ≤ 3600))).headI)
          ≤ waitTimeCalc L H t (evictOld 60 t st.minute_requests)
            (evictOld 3600 t st.hour_requests) := by
        rw [hq1h]
        exact waitTimeCalc_ge_hour hfull
      omega
    · show evictOld 60 t st.minute_requests ++ [t]
        = (hist ++ [t]).filter (fun x => decide (t - x ≤ 60))
      rw [hq1m, List.filter_append,
        show List.filter (fun x => decide (t - x ≤ 60)) [t] = [t] from by simp]
    · show evictOld 3600 t st.hour_requests ++ [t]
        = (hist ++ [t]).filter (fun x => decide (t - x ≤ 3600))
      rw [hq1h, List.filter_append,
        show List.filter (fun x => decide (t - x ≤ 3600)) [t] = [t] from by simp]

theorem run_inv {L H : ℕ} (hL : 1 ≤ L) (hH : 1 ≤ H) :
    ∀ (calls : List (ℤ × ℤ)) (hist : List ℤ) (prev : ℤ) (st : RLState),
      RLInv L H hist prev st →
      RateLimiter.validFrom L H prev st calls = true →
      (hist ++ (RateLimiter.run L H st calls).2).Pairwise (· < ·) ∧
      Spaced 60 L (hist ++ (RateLimiter.run L H st calls).2) ∧
      Spaced 3600 H (hist ++ (RateLimiter.run L H st calls).2) := by
  intro calls
  induction calls with
  | nil =>
      intro hist prev st hinv _
      obtain ⟨hasc, _, hsp60, hsp3600, _, _⟩ := hinv
      rw [show (RateLimiter.run L H st []).2 = [] from rfl, List.append_nil]
      exact ⟨hasc, hsp60, hsp3600⟩
  | cons c rest ih =>
      obtain ⟨t, tw⟩ := c
      intro hist prev st hinv hv
      unfold RateLimiter.validFrom at hv
      simp only [Bool.and_eq_true, decide_eq_true_eq, Bool.or_eq_true,
        Bool.not_eq_true'] at hv
      obtain ⟨⟨hts, hsleep⟩, hrest⟩ := hv
      have htw : 0 < waitTimeCalc L H t (evictOld 60 t st.minute_requests)
          (evictOld 3600 t st.hour_requests) →
          t + waitTimeCalc L H t (evictOld 60 t st.minute_requests)
            (evictOld 3600 t st.hour_requests) ≤ tw := by
        intro h0
        rcases hsleep with h | h
        · exact absurd h0 (by simpa using h)
        · exact h
      have hstep := wait_step_inv hL hH ⟨hinv.1, hinv.2.1, hinv.2.2.1, hinv.2.2.2.1,
        hinv.2.2.2.2.1, hinv.2.2.2.2.2⟩ hts htw
      have hrec := ih (hist ++ [(RateLimiter.wait L H st t tw).2])
        (RateLimiter.wait L H st t tw).2 (RateLimiter.wait L H st t tw).1 hstep hrest
      have hruncons : (RateLimiter.run L H st ((t, tw) :: rest)).2
          = (RateLimiter.wait L H st t tw).2
            :: (RateLimiter.run L H (RateLimiter.wait L H st t tw).1 rest).2 := rfl
      rw [hruncons]
      have happ : hist ++ (RateLimiter.wait L H st t tw).2
            :: (RateLimiter.run L H (RateLimiter.wait L H st t tw).1 rest).2
          = (hist ++ [(RateLimiter.wait L H st t tw).2])
            ++ (RateLimiter.run L H (RateLimiter.wait L H st t tw).1 rest).2 := by
        rw [List.append_assoc]
        rfl
      rw [happ]
      exact hrec

/-- **C6 (amended).** Model the clock readings explicitly: each `wait` call
sees an entry reading `t` and (if it sleeps, holding the lock) a wake
reading `tWake ≥ t + waitTime`. *Provided successive clock readings strictly
increase*, after every completed `wait` the recorded admissions satisfy: any
half-open trailing window `(u, u+60]` holds at most `minute_limit` of them
and any `(u, u+3600]` at most `hour_limit` (limits ≥ 1; with limit 0 the
code would crash on `minute_requests[0]`). The original claim's "for any
call pattern" fails: when the clock repeats a reading at an exact window
boundary the limiter over-admits — see the counterexample. -/
theorem rate_limiter_sliding_window (L H : ℕ) (hL : 1 ≤ L) (hH : 1 ≤ H)
    (t₀ : ℤ) (calls : List (ℤ × ℤ))
    (hv : RateLimiter.validFrom L H t₀ ⟨[], []⟩ calls = true) (u : ℤ) :
    ((RateLimiter.run L H ⟨[], []⟩ calls).2.filter
        (fun x => decide (u < x) && decide (x ≤ u + 60))).length ≤ L ∧
    ((RateLimiter.run L H ⟨[], []⟩ calls).2.filter
        (fun x => decide (u < x) && decide (x ≤ u + 3600))).length ≤ H := by
  have hinv0 : RLInv L H [] t₀ ⟨[], []⟩ := by
    refine ⟨List.Pairwise.nil, by simp, ?_, ?_, rfl, rfl⟩
    · intro i x y hx _
      simp at hx
    · intro i x y hx _
      simp at hx
  obtain ⟨hasc, hsp60, hsp3600⟩ := run_inv hL hH calls [] t₀ ⟨[], []⟩ hinv0 hv
  rw [List.nil_append] at hasc hsp60 hsp3600
  exact ⟨spaced_window_bound hasc hsp60 u, spaced_window_bound hasc hsp3600 u⟩

theorem rate_limiter_sliding_window_witness :
    ((1 : ℕ) ≤ 1 ∧ (1 : ℕ) ≤ 2 ∧
     RateLimiter.validFrom 1 2 (-1) ⟨[], []⟩ [(0, 0), (61, 61)] = true) ∧
    (((RateLimiter.run 1 2 ⟨[], []⟩ [(0, 0), (61, 61)]).2.filter
        (fun x => decide ((5 : ℤ) < x) && decide (x ≤ 5 + 60))).length ≤ 1 ∧
     ((RateLimiter.run 1 2 ⟨[], []⟩ [(0, 0), (61, 61)]).2.filter
        (fun x => decide ((5 : ℤ) < x) && decide (x ≤ 5 + 3600))).length ≤ 2) :=
  ⟨⟨by decide, by decide, by decide⟩,
   rate_limiter_sliding_window 1 2 (by decide) (by decide) (-1) [(0, 0), (61, 61)]
     (by decide) 5⟩

/-- **C6 (counterexample).** With `minute_limit = 1` and the realistic
monotone clock readings 0, 60, 60 (a clock may repeat a reading; no sleeps
occur on this trace), the limiter admits all three calls immediately — the
recorded history is `[0, 60, 60]` — so the half-open sliding window
`(0, 60]` holds 2 admissions, exceeding the minute limit 1. The eviction
keeps the boundary entry (age exactly 60) but the wait computation
`60 - (now - oldest)` treats it as expired, so the re-check after the window
boundary admits a second call at the same instant. -/
theorem rate_limiter_claim_counterexample :
    ((0 : ℤ) ≤ 60 ∧ (60 : ℤ) ≤ 60) ∧
    (RateLimiter.run 1 100 ⟨[], []⟩ [(0, 0), (60, 60), (60, 60)]).2 = [0, 60, 60] ∧
    (((RateLimiter.run 1 100 ⟨[], []⟩ [(0, 0), (60, 60), (60, 60)]).2.filter
        (fun x => decide ((0 : ℤ) < x) && decide (x ≤ 0 + 60))).length = 2) ∧
    1 < 2 := by
  decide

end V1D

